import Mathlib

/-!
Verification of the ray-tracing kernel: homogeneous tuples, dense matrices
with cofactor inversion, transform builders, ray/sphere intersection,
hit selection, Phong lighting, and the plain-text PPM export.

The floating-point scalars of the source are idealised as real numbers:
`f64` arithmetic becomes exact arithmetic on `ℝ`, `f64::sqrt` becomes
`Real.sqrt` and `f64::powf` becomes `Real.rpow`.  Indexing that would
panic out of bounds in the source is modelled totally (`List.getD` with
default `0`, `List.set` ignoring out-of-range writes); every theorem that
relies on an index staying in range carries the corresponding
well-formedness hypothesis.  The explicit panic on a non-square
determinant request is modelled by an `Option` result.
-/

/-- Square real matrices of Mathlib, used as the semantic model that the
flat-list matrices of the code are compared against. -/
abbrev MMatrix (n : Nat) := Matrix (Fin n) (Fin n) ℝ

noncomputable section

namespace RT

/-- The comparison tolerance of the float_cmp based equality in the code
(epsilon = 0.00001; the additional ulps clause of float_cmp has no
meaning on exact reals and is dropped). -/
def eps : ℝ := 0.00001

/-! ## Tuple -/

/-- tuple.rs: a 4-component homogeneous tuple. -/
structure Tuple where
  x : ℝ
  y : ℝ
  z : ℝ
  w : ℝ

namespace Tuple

/-- Tuple::new. -/
def new (x y z w : ℝ) : Tuple := ⟨x, y, z, w⟩

/-- Tuple::point (w = 1). -/
def point (x y z : ℝ) : Tuple := new x y z 1

/-- Tuple::vector (w = 0). -/
def vector (x y z : ℝ) : Tuple := new x y z 0

/-- The Add impl: component-wise addition. -/
def add (a b : Tuple) : Tuple := ⟨a.x + b.x, a.y + b.y, a.z + b.z, a.w + b.w⟩

/-- The Sub impl: component-wise subtraction. -/
def sub (a b : Tuple) : Tuple := ⟨a.x - b.x, a.y - b.y, a.z - b.z, a.w - b.w⟩

/-- The Neg impl. -/
def neg (a : Tuple) : Tuple := ⟨-a.x, -a.y, -a.z, -a.w⟩

/-- The Mul<f64> impl: scalar multiplication, including w. -/
def mulScalar (a : Tuple) (k : ℝ) : Tuple := ⟨a.x * k, a.y * k, a.z * k, a.w * k⟩

/-- The Div<f64> impl: scalar division, including w. -/
def divScalar (a : Tuple) (k : ℝ) : Tuple := ⟨a.x / k, a.y / k, a.z / k, a.w / k⟩

/-- Tuple::dot. -/
def dot (a b : Tuple) : ℝ := a.x * b.x + a.y * b.y + a.z * b.z + a.w * b.w

/-- Tuple::cross (returns a vector). -/
def cross (a b : Tuple) : Tuple :=
  vector (a.y * b.z - a.z * b.y) (a.z * b.x - a.x * b.z) (a.x * b.y - a.y * b.x)

/-- Tuple::magnitude: sqrt of the sum of the squares of all four components. -/
def magnitude (a : Tuple) : ℝ := Real.sqrt (a.x ^ 2 + a.y ^ 2 + a.z ^ 2 + a.w ^ 2)

/-- Tuple::normalize: divide every component by the magnitude. -/
def normalize (a : Tuple) : Tuple :=
  ⟨a.x / a.magnitude, a.y / a.magnitude, a.z / a.magnitude, a.w / a.magnitude⟩

/-- Tuple::reflect: self - (n * 2.0) * self.dot(n). -/
def reflect (a n : Tuple) : Tuple := a.sub ((n.mulScalar 2).mulScalar (a.dot n))

/-- The PartialEq impl: component-wise approximate equality with
epsilon 0.00001. -/
def approxEq (a b : Tuple) : Prop :=
  |a.x - b.x| ≤ eps ∧ |a.y - b.y| ≤ eps ∧ |a.z - b.z| ≤ eps ∧ |a.w - b.w| ≤ eps

end Tuple

/-! ## Color -/

/-- color.rs: a color is a tuple whose w component is 0. -/
structure Color where
  tuple : Tuple

namespace Color

/-- Color::new. -/
def new (red green blue : ℝ) : Color := ⟨Tuple.new red green blue 0⟩

/-- Color::red. -/
def red (c : Color) : ℝ := c.tuple.x

/-- Color::green. -/
def green (c : Color) : ℝ := c.tuple.y

/-- Color::blue. -/
def blue (c : Color) : ℝ := c.tuple.z

/-- Color::default: black. -/
def default : Color := new 0 0 0

/-- The Add impl. -/
def add (a b : Color) : Color := ⟨a.tuple.add b.tuple⟩

/-- The Sub impl. -/
def sub (a b : Color) : Color := ⟨a.tuple.sub b.tuple⟩

/-- The Mul<f64> impl. -/
def mulScalar (a : Color) (k : ℝ) : Color := ⟨a.tuple.mulScalar k⟩

/-- The Mul<&Color> impl: Hadamard product. -/
def mulColor (a b : Color) : Color := new (a.red * b.red) (a.green * b.green) (a.blue * b.blue)

/-- The PartialEq impl: delegates to the approximate tuple equality. -/
def approxEq (a b : Color) : Prop := a.tuple.approxEq b.tuple

end Color

/-! ## Matrix

matrix.rs stores a height × width matrix as a flat row-major list.
Indexing `self[(y, x)]` reads `values[y * width + x]`; reads are modelled
with `List.getD _ _ 0` and the mutating writes of `IndexMut` with
`List.set` (both total; the theorems that depend on indices being in
range carry length hypotheses). -/

structure Matrix where
  height : Nat
  width : Nat
  values : List ℝ

namespace Matrix

/-- Matrix::new: zero-filled. -/
def new (height width : Nat) : Matrix := ⟨height, width, List.replicate (height * width) 0⟩

/-- Matrix::from_values. -/
def fromValues (height width : Nat) (values : List ℝ) : Matrix := ⟨height, width, values⟩

/-- The Index impl: `self[(r, c)] = values[r * width + c]`. -/
def entry (m : Matrix) (r c : Nat) : ℝ := m.values.getD (r * m.width + c) 0

/-- One `IndexMut` write at a flat index. -/
def setIdx (m : Matrix) (i : Nat) (v : ℝ) : Matrix := ⟨m.height, m.width, m.values.set i v⟩

/-- A sequence of `IndexMut` writes, performed left to right.  The loop
bodies of the source compute each written value from the loop inputs
only, so a loop nest is modelled as `writeSeq` of its write list. -/
def writeSeq (m : Matrix) (ws : List (Nat × ℝ)) : Matrix :=
  ws.foldl (fun a p => a.setIdx p.1 p.2) m

/-- Matrix::identity: new(h, w), then `m[(i, i)] = 1.0` for i < height. -/
def identity (height width : Nat) : Matrix :=
  (new height width).writeSeq ((List.range height).map fun i => (i * width + i, 1))

/-- Matrix::transpose: out = new(width, height); out[(x, y)] = self[(y, x)]
for y < height, x < width (flat write index `x * height + y`). -/
def transpose (m : Matrix) : Matrix :=
  (new m.width m.height).writeSeq
    ((List.range m.height).flatMap fun y =>
      (List.range m.width).map fun x => (x * m.height + y, m.entry y x))

/-- Matrix::submatrix: keep the enumerated values whose flat index i has
`i / width != row` and `i % width != column`; the result claims shape
(height - 1) × (width - 1). -/
def submatrix (m : Matrix) (row column : Nat) : Matrix :=
  ⟨m.height - 1, m.width - 1,
    ((m.values.enum.filter fun p =>
        (p.1 / m.width != row) && (p.1 % m.width != column)).map Prod.snd)⟩

/-- The recursion of Matrix::determinant, structurally on the height:
the 2 × 2 closed form, otherwise cofactor expansion along row 0, each
cofactor being plus or minus the determinant of a submatrix (whose height
is one less).  A height-0 matrix yields 0 (the expansion loop is empty). -/
def detN : Nat → Matrix → ℝ
  | 0, _ => 0
  | n + 1, m =>
    if m.height = 2 then
      m.values.getD 0 0 * m.values.getD 3 0 - m.values.getD 1 0 * m.values.getD 2 0
    else
      (List.range m.width).foldl
        (fun out x =>
          out + m.values.getD x 0 *
            (if (0 + x) % 2 = 1 then -(detN n (m.submatrix 0 x)) else detN n (m.submatrix 0 x)))
        0

/-- The numeric value Matrix::determinant computes once its non-square
panic guard has passed. -/
def detVal (m : Matrix) : ℝ := detN m.height m

/-- Matrix::determinant: panics (None) on a non-square matrix, otherwise
the cofactor-expansion value. -/
def determinant (m : Matrix) : Option ℝ :=
  if m.height ≠ m.width then none else some m.detVal

/-- Matrix::minor: determinant of the submatrix. -/
def minorVal (m : Matrix) (row column : Nat) : ℝ := (m.submatrix row column).detVal

/-- Matrix::cofactor: the minor, negated when row + column is odd. -/
def cofactorVal (m : Matrix) (row column : Nat) : ℝ :=
  if (row + column) % 2 = 1 then -(m.minorVal row column) else m.minorVal row column

/-- Matrix::is_invertible: determinant != 0.0 (on a square matrix; on a
non-square one the source would panic inside determinant()). -/
def isInvertible (m : Matrix) : Prop := m.detVal ≠ 0

/-- The Mul<f64> impl: scale every stored value. -/
def smul (m : Matrix) (k : ℝ) : Matrix := ⟨m.height, m.width, m.values.map (· * k)⟩

/-- The cofactor matrix built by Matrix::inverse: new(h, w) filled with
`cofactor(y, x)` at every cell. -/
def cofactorMatrix (m : Matrix) : Matrix :=
  (new m.height m.width).writeSeq
    ((List.range m.height).flatMap fun y =>
      (List.range m.width).map fun x => (y * m.width + x, m.cofactorVal y x))

/-- The value Matrix::inverse computes: the transposed cofactor matrix
scaled by 1/determinant (no invertibility guard in the source). -/
def inverseVal (m : Matrix) : Matrix := m.cofactorMatrix.transpose.smul (1 / m.detVal)

/-- Matrix::inverse: panics (None) on a non-square matrix, because it
calls determinant(); otherwise the transposed cofactor matrix scaled by
1/determinant. -/
def inverse (m : Matrix) : Option Matrix :=
  if m.height ≠ m.width then none else some m.inverseVal

/-- The Mul<&Matrix> impl: out = new(rhs.height, self.width); for
y < self.height and x < rhs.width, out[(y, x)] = sum over i < self.width
of self[(y, i)] * rhs[(i, x)].  Note the allocation really uses
rhs.height and self.width, exactly as the source does. -/
def mul (a b : Matrix) : Matrix :=
  (new b.height a.width).writeSeq
    ((List.range a.height).flatMap fun y =>
      (List.range b.width).map fun x =>
        (y * a.width + x,
          (List.range a.width).foldl (fun s i => s + a.entry y i * b.entry i x) 0))

/-- The Mul<&Tuple> impl: multiply by the 4 × 1 matrix of the tuple and
read back column 0. -/
def mulTuple (m : Matrix) (t : Tuple) : Tuple :=
  let out := m.mul (fromValues 4 1 [t.x, t.y, t.z, t.w])
  Tuple.new (out.entry 0 0) (out.entry 1 0) (out.entry 2 0) (out.entry 3 0)

/-- The PartialEq impl: equal dimensions and zipped values pairwise within
epsilon. -/
def approxEq (m o : Matrix) : Prop :=
  m.height = o.height ∧ m.width = o.width ∧
    ∀ p ∈ m.values.zip o.values, |p.1 - p.2| ≤ eps

end Matrix

/-! ## Transformations (transform.rs) -/

/-- transformation::translation: the identity with the last column set to
(x, y, z, 1). -/
def translation (x y z : ℝ) : Matrix :=
  (((Matrix.identity 4 4).setIdx (0 * 4 + 3) x).setIdx (1 * 4 + 3) y).setIdx (2 * 4 + 3) z

/-- transformation::scaling. -/
def scaling (x y z : ℝ) : Matrix :=
  ((((Matrix.new 4 4).setIdx (0 * 4 + 0) x).setIdx (1 * 4 + 1) y).setIdx
      (2 * 4 + 2) z).setIdx (3 * 4 + 3) 1

/-! ## Ray -/

/-- ray.rs: an origin and a direction tuple. -/
structure Ray where
  origin : Tuple
  direction : Tuple

namespace Ray

/-- Ray::position: origin + direction * t. -/
def position (r : Ray) (t : ℝ) : Tuple := r.origin.add (r.direction.mulScalar t)

/-- Ray::transform: apply the matrix to both origin and direction. -/
def transform (r : Ray) (m : Matrix) : Ray := ⟨m.mulTuple r.origin, m.mulTuple r.direction⟩

end Ray

/-! ## Intersection -/

/-- intersection.rs: the parameter t of an intersection.  The borrowed
object reference of the source carries no numeric content and none of
the verified claims depends on it, so it is not modelled. -/
structure Intersection where
  t : ℝ

namespace Intersection

/-- Iterator::min_by of the standard library: the first element that is
minimal under the comparison (later elements replace the accumulator
only when strictly smaller). -/
def minBy (l : List Intersection) : Option Intersection :=
  l.foldl
    (fun acc y =>
      match acc with
      | none => some y
      | some x => if y.t < x.t then some y else some x)
    none

/-- Intersection::from_hit: keep the intersections with t >= 0.0 and take
the minimum by t. -/
def fromHit (l : List Intersection) : Option Intersection :=
  minBy (l.filter fun i => decide (0 ≤ i.t))

end Intersection

/-! ## Sphere -/

/-- sphere.rs: the unit sphere at the object-space origin, carrying its
transform matrix.  (The material field plays no role in the claims under
verification and the source revision stores none on the sphere.) -/
structure Sphere where
  transform : Matrix

namespace Sphere

/-- Sphere::default: identity transform. -/
def default : Sphere := ⟨Matrix.identity 4 4⟩

/-- Object::intersects for Sphere.  The source inverts the (always 4 × 4,
hence square) transform, so the panic branch of Matrix::inverse is dead
and the computation is `inverseVal`. -/
def intersects (s : Sphere) (ray : Ray) : List Intersection :=
  let r := ray.transform s.transform.inverseVal
  let sphereToRay := r.origin.sub (Tuple.point 0 0 0)
  let a := r.direction.dot r.direction
  let b := 2 * r.direction.dot sphereToRay
  let c := sphereToRay.dot sphereToRay - 1
  let discriminant := b * b - 4 * a * c
  if discriminant < 0 then []
  else
    [⟨(-b - Real.sqrt discriminant) / (2 * a)⟩,
     ⟨(-b + Real.sqrt discriminant) / (2 * a)⟩]

/-- Object::normal_at for Sphere: object point via the inverse transform,
object normal = object point - origin, back through the transposed
inverse, w zeroed, then normalized. -/
def normalAt (s : Sphere) (point : Tuple) : Tuple :=
  let objectPoint := s.transform.inverseVal.mulTuple point
  let objectNormal := objectPoint.sub (Tuple.point 0 0 0)
  let worldNormal := s.transform.inverseVal.transpose.mulTuple objectNormal
  let worldNormal2 := Tuple.vector worldNormal.x worldNormal.y worldNormal.z
  worldNormal2.normalize

end Sphere

/-! ## PointLight and Material -/

/-- lights.rs: a point light source. -/
structure PointLight where
  position : Tuple
  intensity : Color

/-- materials.rs: color plus the four Phong coefficients. -/
structure Material where
  color : Color
  ambient : ℝ
  diffuse : ℝ
  specular : ℝ
  shininess : ℝ

namespace Material

/-- Material::default. -/
def default : Material := ⟨Color.new 1 1 1, 0.1, 0.9, 0.9, 200⟩

/-- Material::lighting.  The source initialises diffuse and specular to
black and overwrites them inside the `light_dot_normal >= 0.0` branch;
the specular overwrite additionally requires `reflect_dot_eye > 0.0`. -/
def lighting (m : Material) (light : PointLight) (position eyeVec normalVec : Tuple) : Color :=
  let effectiveColor := m.color.mulColor light.intensity
  let lightv := (light.position.sub position).normalize
  let ambient := effectiveColor.mulScalar m.ambient
  let lightDotNormal := lightv.dot normalVec
  let black := Color.new 0 0 0
  if 0 ≤ lightDotNormal then
    let diffuse := (effectiveColor.mulScalar m.diffuse).mulScalar lightDotNormal
    let reflectv := lightv.neg.reflect normalVec
    let reflectDotEye := reflectv.dot eyeVec
    if 0 < reflectDotEye then
      let factor := reflectDotEye ^ m.shininess
      let specular := (light.intensity.mulScalar m.specular).mulScalar factor
      (ambient.add diffuse).add specular
    else
      (ambient.add diffuse).add black
  else
    (ambient.add black).add black

/-- The PartialEq impl for Material: approximate equality on the four
coefficients, and the Color PartialEq on the color — which itself is the
approximate tuple equality, not exact equality. -/
def matEq (a b : Material) : Prop :=
  |a.ambient - b.ambient| ≤ eps ∧ |a.diffuse - b.diffuse| ≤ eps ∧
    |a.specular - b.specular| ≤ eps ∧ |a.shininess - b.shininess| ≤ eps ∧
    a.color.approxEq b.color

end Material

/-! ## Canvas and the PPM exporter -/

/-- canvas.rs: width, height and a flat row-major pixel list. -/
structure Canvas where
  width : Nat
  height : Nat
  pixels : List Color

/-- Canvas::new: every pixel is the default (black) color. -/
def Canvas.new (width height : Nat) : Canvas :=
  ⟨width, height, List.replicate (width * height) Color.default⟩

/-- exporter.rs get_out_val: clamp a channel to [0, 1] and scale to an
integer in [0, 255] (rounding). -/
def getOutVal (px : ℝ) : Nat :=
  if px ≤ 0 then 0
  else if 1 ≤ px then 255
  else (round (px * 255) : ℤ).toNat

/-- Decimal rendering of a sample value (what itoa writes), as a list of
characters; the fuel argument of the helper is a structural bound on the
number of digits. -/
def decRepAux : Nat → Nat → List Char
  | 0, _ => []
  | _ + 1, 0 => []
  | fuel + 1, n => decRepAux fuel (n / 10) ++ [Nat.digitChar (n % 10)]

/-- Decimal rendering, with `0` written as "0". -/
def decimalRepr (n : Nat) : List Char :=
  if n = 0 then ['0'] else decRepAux n n

/-- MAX_PPM_LINE_LENGTH of exporter.rs. -/
def maxPpmLineLength : Nat := 70

/-- The header `"P3\n{} {}\n255\n"` written before the pixel data. -/
def ppmHeader (width height : Nat) : List Char :=
  ['P', '3', '\n'] ++ (decimalRepr width ++ ' ' :: decimalRepr height) ++
    '\n' :: '2' :: '5' :: '5' :: '\n' :: []

/-- The pixel-data loop of PPMExporter::export: write each sample, then a
newline when `(count + 1) % (width * 3) = 0` or `count + 1` reaches the
line budget (the count counts samples since the last newline, not
characters), otherwise a space; `rowLen` is `canvas.width() * 3`. -/
def ppmBody (rowLen : Nat) : List Nat → Nat → List Char
  | [], _ => []
  | s :: rest, count =>
    decimalRepr s ++
      (if (count + 1) % rowLen = 0 ∨ maxPpmLineLength ≤ count + 1 then
        '\n' :: ppmBody rowLen rest 0
      else
        ' ' :: ppmBody rowLen rest (count + 1))

/-- The flat sample stream: red, green, blue of every pixel in order. -/
def samples (c : Canvas) : List Nat :=
  c.pixels.flatMap fun px => [getOutVal px.red, getOutVal px.green, getOutVal px.blue]

/-- PPMExporter::export: header then the wrapped sample stream. -/
def ppmExport (c : Canvas) : List Char :=
  ppmHeader c.width c.height ++ ppmBody (c.width * 3) (samples c) 0

/-- The lines of an exported stream: maximal newline-free segments (a
trailing newline contributes a final empty segment, as a text reader
would see). -/
def splitNl : List Char → List (List Char)
  | [] => [[]]
  | c :: cs =>
    match splitNl cs with
    | [] => [[c]]
    | l :: ls => if c = '\n' then [] :: l :: ls else (c :: l) :: ls

/-! ## Definitions following the words of the specification

Used in refinement claims: each is written from the prose of the spec and
compared against the corresponding definition translated from the code. -/

/-- Modelled from the spec, section 4.5: transform the incoming ray by the
inverse of the sphere transform; solve the quadratic with a = D . D,
b = 2 D . (O - center), c = (O - center) . (O - center) - 1; an empty list
when the discriminant is negative, else exactly the two parameters
t1 = (-b - sqrt disc) / 2a then t2 = (-b + sqrt disc) / 2a. -/
def sphereIntersectionsSpec (s : Sphere) (ray : Ray) : List ℝ :=
  let r := ray.transform s.transform.inverseVal
  let o := r.origin.sub (Tuple.point 0 0 0)
  let a := r.direction.dot r.direction
  let b := 2 * r.direction.dot o
  let c := o.dot o - 1
  let disc := b * b - 4 * a * c
  if disc < 0 then []
  else [(-b - Real.sqrt disc) / (2 * a), (-b + Real.sqrt disc) / (2 * a)]

/-- Modelled from the spec, section 4.7: the six numbered steps of the
Phong lighting computation, with black diffuse and specular when the
light is behind the surface (light_dot_normal < 0) and black specular
when the reflection points away from the eye (reflect_dot_eye <= 0). -/
def lightingSpec (m : Material) (light : PointLight) (point eyeVector normalVector : Tuple) :
    Color :=
  let effectiveColor := m.color.mulColor light.intensity
  let lightVector := (light.position.sub point).normalize
  let ambient := effectiveColor.mulScalar m.ambient
  let lightDotNormal := lightVector.dot normalVector
  let black := Color.new 0 0 0
  if lightDotNormal < 0 then (ambient.add black).add black
  else
    let diffuse := (effectiveColor.mulScalar m.diffuse).mulScalar lightDotNormal
    let reflectVector := lightVector.neg.reflect normalVector
    let reflectDotEye := reflectVector.dot eyeVector
    if reflectDotEye ≤ 0 then (ambient.add diffuse).add black
    else
      (ambient.add diffuse).add
        ((light.intensity.mulScalar m.specular).mulScalar (reflectDotEye ^ m.shininess))

/-! ## List infrastructure -/

/-- A left fold that adds `f i` for every i of a list, starting from s. -/
theorem foldl_add_eq_sum (l : List ℕ) (f : ℕ → ℝ) (s : ℝ) :
    l.foldl (fun a i => a + f i) s = s + (l.map f).sum := by
  induction l generalizing s with
  | nil => simp
  | cons a l ih => simp [ih, add_assoc]

/-- The expansion fold over a row equals a Finset sum. -/
theorem foldl_add_eq_finset_sum (n : Nat) (f : ℕ → ℝ) :
    (List.range n).foldl (fun a i => a + f i) 0 = ∑ i ∈ Finset.range n, f i := by
  induction n with
  | zero => simp
  | succ n ih =>
    rw [List.range_succ, List.foldl_append, ih, Finset.sum_range_succ]
    simp

theorem set_getD_ne (l : List ℝ) (i j : Nat) (a : ℝ) (h : i ≠ j) :
    (l.set i a).getD j 0 = l.getD j 0 := by
  simp [List.getD_eq_getElem?_getD, List.getElem?_set, h]

theorem set_getD_eq (l : List ℝ) (i : Nat) (a : ℝ) (h : i < l.length) :
    (l.set i a).getD i 0 = a := by
  simp [List.getD_eq_getElem?_getD, List.getElem?_set, h]

namespace Matrix

@[simp] theorem setIdx_height (m : Matrix) (i : Nat) (v : ℝ) : (m.setIdx i v).height = m.height :=
  rfl

@[simp] theorem setIdx_width (m : Matrix) (i : Nat) (v : ℝ) : (m.setIdx i v).width = m.width :=
  rfl

@[simp] theorem setIdx_length (m : Matrix) (i : Nat) (v : ℝ) :
    (m.setIdx i v).values.length = m.values.length :=
  List.length_set ..

@[simp] theorem writeSeq_height (m : Matrix) (ws : List (Nat × ℝ)) :
    (m.writeSeq ws).height = m.height := by
  induction ws generalizing m with
  | nil => rfl
  | cons p ws ih => simpa [writeSeq] using ih (m.setIdx p.1 p.2)

@[simp] theorem writeSeq_width (m : Matrix) (ws : List (Nat × ℝ)) :
    (m.writeSeq ws).width = m.width := by
  induction ws generalizing m with
  | nil => rfl
  | cons p ws ih => simpa [writeSeq] using ih (m.setIdx p.1 p.2)

@[simp] theorem writeSeq_length (m : Matrix) (ws : List (Nat × ℝ)) :
    (m.writeSeq ws).values.length = m.values.length := by
  induction ws generalizing m with
  | nil => rfl
  | cons p ws ih => simpa [writeSeq] using ih (m.setIdx p.1 p.2)

/-- A flat index no write of the sequence touches keeps its old value. -/
theorem writeSeq_getD_not_mem (m : Matrix) (ws : List (Nat × ℝ)) (k : Nat)
    (h : k ∉ ws.map Prod.fst) :
    (m.writeSeq ws).values.getD k 0 = m.values.getD k 0 := by
  induction ws generalizing m with
  | nil => rfl
  | cons p ws ih =>
    simp only [List.map_cons, List.mem_cons, not_or] at h
    rw [writeSeq, List.foldl_cons, ← writeSeq, ih _ h.2]
    exact set_getD_ne _ _ _ _ (fun e => h.1 e.symm)

/-- With pairwise distinct write indices, an in-range written cell holds
its written value afterwards. -/
theorem writeSeq_getD_mem (m : Matrix) (ws : List (Nat × ℝ)) (k : Nat) (v : ℝ)
    (hmem : (k, v) ∈ ws) (hnd : (ws.map Prod.fst).Nodup) (hk : k < m.values.length) :
    (m.writeSeq ws).values.getD k 0 = v := by
  induction ws generalizing m with
  | nil => cases hmem
  | cons p ws ih =>
    simp only [List.map_cons, List.nodup_cons] at hnd
    rw [writeSeq, List.foldl_cons, ← writeSeq]
    rcases List.mem_cons.1 hmem with h | h
    · subst h
      rw [writeSeq_getD_not_mem _ _ _ hnd.1]
      exact set_getD_eq _ _ _ hk
    · exact ih _ h hnd.2 (by simpa using hk)

/-- The write list of a doubly nested fill loop: outer index y < Y, inner
index x < X, flat position g y x, written value f y x. -/
def tableWrites (Y X : Nat) (g : Nat → Nat → Nat) (f : Nat → Nat → ℝ) : List (Nat × ℝ) :=
  (List.range Y).flatMap fun y => (List.range X).map fun x => (g y x, f y x)

theorem mem_tableWrites {Y X : Nat} {g : Nat → Nat → Nat} {f : Nat → Nat → ℝ} {p : Nat × ℝ} :
    p ∈ tableWrites Y X g f ↔ ∃ y < Y, ∃ x < X, p = (g y x, f y x) := by
  simp only [tableWrites, List.mem_flatMap, List.mem_map, List.mem_range]
  constructor
  · rintro ⟨y, hy, x, hx, rfl⟩
    exact ⟨y, hy, x, hx, rfl⟩
  · rintro ⟨y, hy, x, hx, rfl⟩
    exact ⟨y, hy, x, hx, rfl⟩

theorem tableWrites_fst_nodup {Y X : Nat} {g : Nat → Nat → Nat} {f : Nat → Nat → ℝ}
    (hinj : ∀ y < Y, ∀ x < X, ∀ y' < Y, ∀ x' < X, g y x = g y' x' → y = y' ∧ x = x') :
    ((tableWrites Y X g f).map Prod.fst).Nodup := by
  rw [tableWrites, List.map_flatMap, List.nodup_flatMap]
  constructor
  · intro y hy
    rw [List.mem_range] at hy
    rw [List.map_map]
    refine List.Nodup.map_on ?_ (List.nodup_range X)
    intro x hx x' hx' hxx
    rw [List.mem_range] at hx hx'
    exact (hinj y hy x hx y hy x' hx' hxx).2
  · refine List.Pairwise.imp_of_mem ?_ (List.pairwise_lt_range Y)
    intro y y' hym hym' hlt k hk hk'
    rw [List.mem_range] at hym hym'
    simp only [List.map_map, List.mem_map, List.mem_range, Function.comp] at hk hk'
    rcases hk with ⟨x, hx, rfl⟩
    rcases hk' with ⟨x', hx', he⟩
    exact absurd (hinj y' hym' x' hx' y hym x hx he).1.symm (Nat.ne_of_lt hlt)

/-- After executing a doubly nested fill loop whose flat positions are
pairwise distinct and in range, the cell written by iteration (r, c)
holds the value of that iteration. -/
theorem writeSeq_tableWrites_getD (m : Matrix) {Y X : Nat} {g : Nat → Nat → Nat}
    {f : Nat → Nat → ℝ}
    (hinj : ∀ y < Y, ∀ x < X, ∀ y' < Y, ∀ x' < X, g y x = g y' x' → y = y' ∧ x = x')
    (hlt : ∀ y < Y, ∀ x < X, g y x < m.values.length)
    {r c : Nat} (hr : r < Y) (hc : c < X) :
    (m.writeSeq (tableWrites Y X g f)).values.getD (g r c) 0 = f r c :=
  writeSeq_getD_mem m _ _ _ (mem_tableWrites.2 ⟨r, hr, c, hc, rfl⟩)
    (tableWrites_fst_nodup hinj) (hlt r hr c hc)

/-- A flat index no iteration of the fill loop writes keeps its old value. -/
theorem writeSeq_tableWrites_getD_miss (m : Matrix) {Y X : Nat} {g : Nat → Nat → Nat}
    {f : Nat → Nat → ℝ} {k : Nat} (hmiss : ∀ y < Y, ∀ x < X, g y x ≠ k) :
    (m.writeSeq (tableWrites Y X g f)).values.getD k 0 = m.values.getD k 0 := by
  refine writeSeq_getD_not_mem m _ _ ?_
  rw [List.mem_map]
  rintro ⟨p, hp, rfl⟩
  rcases mem_tableWrites.1 hp with ⟨y, hy, x, hx, rfl⟩
  exact hmiss y hy x hx rfl

/-! ### Decoding flat row-major indices -/

theorem idx_div (y x w : Nat) (hx : x < w) : (y * w + x) / w = y := by
  have hw : 0 < w := lt_of_le_of_lt (Nat.zero_le x) hx
  have h : y * w + x = x + w * y := by ring
  rw [h, Nat.add_mul_div_left _ _ hw, Nat.div_eq_of_lt hx, Nat.zero_add]

theorem idx_mod (y x w : Nat) (hx : x < w) : (y * w + x) % w = x := by
  have h : y * w + x = x + w * y := by ring
  rw [h, Nat.add_mul_mod_self_left, Nat.mod_eq_of_lt hx]

theorem idx_inj {y x y' x' w : Nat} (hx : x < w) (hx' : x' < w)
    (h : y * w + x = y' * w + x') : y = y' ∧ x = x' := by
  constructor
  · have := congrArg (· / w) h
    simpa [idx_div _ _ _ hx, idx_div _ _ _ hx'] using this
  · have := congrArg (· % w) h
    simpa [idx_mod _ _ _ hx, idx_mod _ _ _ hx'] using this

theorem idx_lt {y x h w : Nat} (hy : y < h) (hx : x < w) : y * w + x < h * w :=
  calc y * w + x < y * w + w := by omega
  _ = (y + 1) * w := by ring
  _ ≤ h * w := Nat.mul_le_mul_right w hy

/-! ### Entries of the built matrices -/

@[simp] theorem new_height (h w : Nat) : (new h w).height = h := rfl

@[simp] theorem new_width (h w : Nat) : (new h w).width = w := rfl

@[simp] theorem new_length (h w : Nat) : (new h w).values.length = h * w := by
  simp [new]

theorem new_getD (h w k : Nat) : (new h w).values.getD k 0 = 0 := by
  rw [new]
  rcases Nat.lt_or_ge k (h * w) with hk | hk
  · simp [List.getD_eq_getElem?_getD, List.getElem?_replicate, hk]
  · have hlen : (List.replicate (h * w) (0 : ℝ)).length ≤ k := by simpa using hk
    simp [List.getD_eq_getElem?_getD, List.getElem?_eq_none hlen]

theorem new_entry (h w r c : Nat) : (new h w).entry r c = 0 := new_getD ..

@[simp] theorem identity_height (h w : Nat) : (identity h w).height = h := by
  simp [identity]

@[simp] theorem identity_width (h w : Nat) : (identity h w).width = w := by
  simp [identity]

@[simp] theorem identity_length (h w : Nat) : (identity h w).values.length = h * w := by
  simp [identity]

/-- The diagonal write list of Matrix::identity as a degenerate table. -/
theorem identity_eq_table (h w : Nat) :
    identity h w =
      (new h w).writeSeq (tableWrites h 1 (fun y _ => y * w + y) (fun _ _ => 1)) := by
  unfold identity tableWrites
  congr 1
  induction h with
  | zero => rfl
  | succ h ih => rw [List.range_succ, List.map_append, List.flatMap_append, ih]; rfl

theorem identity_entry {n : Nat} {r c : Nat} (hr : r < n) (hc : c < n) :
    (identity n n).entry r c = if r = c then 1 else 0 := by
  have hg : ∀ y < n, ∀ x < (1 : Nat), ∀ y' < n, ∀ x' < (1 : Nat),
      y * n + y = y' * n + y' → y = y' ∧ x = x' := by
    intro y hy x hx y' hy' x' hx' he
    exact ⟨(idx_inj hy hy' he).1, by omega⟩
  rw [identity_eq_table]
  simp only [entry, writeSeq_width, new_width]
  by_cases hrc : r = c
  · subst hrc
    rw [if_pos rfl]
    exact writeSeq_tableWrites_getD _ hg
      (fun y hy x _ => by simpa using idx_lt hy hy) hr Nat.one_pos
  · rw [if_neg hrc]
    rw [writeSeq_tableWrites_getD_miss]
    · exact new_getD ..
    · intro y hy x _ he
      rcases idx_inj hy hc he with ⟨h1, h2⟩
      exact hrc (h1.symm.trans h2)

@[simp] theorem transpose_height (m : Matrix) : m.transpose.height = m.width := by
  simp [transpose]

@[simp] theorem transpose_width (m : Matrix) : m.transpose.width = m.height := by
  simp [transpose]

@[simp] theorem transpose_length (m : Matrix) :
    m.transpose.values.length = m.width * m.height := by
  simp [transpose]

theorem transpose_entry (m : Matrix) {r c : Nat} (hr : r < m.width) (hc : c < m.height) :
    m.transpose.entry r c = m.entry c r := by
  have hg : ∀ y < m.height, ∀ x < m.width, ∀ y' < m.height, ∀ x' < m.width,
      x * m.height + y = x' * m.height + y' → y = y' ∧ x = x' := by
    intro y hy x _ y' hy' x' _ he
    obtain ⟨h1, h2⟩ := idx_inj hy hy' he
    exact ⟨h2, h1⟩
  rw [transpose]
  simp only [entry, writeSeq_width, new_width]
  exact writeSeq_tableWrites_getD _ hg
    (fun y hy x hx => by simpa using idx_lt hx hy) hc hr

@[simp] theorem mul_height (a b : Matrix) : (a.mul b).height = b.height := by
  simp [mul]

@[simp] theorem mul_width (a b : Matrix) : (a.mul b).width = a.width := by
  simp [mul]

@[simp] theorem mul_length (a b : Matrix) : (a.mul b).values.length = b.height * a.width := by
  simp [mul]

/-- The row-by-column sum the multiplication loop accumulates. -/
def dotRC (a b : Matrix) (y x : Nat) : ℝ := ∑ i ∈ Finset.range a.width, a.entry y i * b.entry i x

/-- An entry both loops reach holds the row-by-column dot product.  The
in-range conditions reflect the out-allocation of the source:
out = new(b.height, a.width), written at y * a.width + x for
y < a.height and x < b.width. -/
theorem mul_entry_hit (a b : Matrix) (hX : b.width ≤ a.width) (hY : a.height ≤ b.height)
    {r c : Nat} (hr : r < a.height) (hc : c < b.width) :
    (a.mul b).entry r c = dotRC a b r c := by
  have hg : ∀ y < a.height, ∀ x < b.width, ∀ y' < a.height, ∀ x' < b.width,
      y * a.width + x = y' * a.width + x' → y = y' ∧ x = x' :=
    fun y _ x hx y' _ x' hx' he => idx_inj (lt_of_lt_of_le hx hX) (lt_of_lt_of_le hx' hX) he
  show (a.mul b).values.getD (r * (a.mul b).width + c) 0 = dotRC a b r c
  rw [mul_width]
  exact (writeSeq_tableWrites_getD (new b.height a.width) hg
    (fun y hy x hx => by simpa using idx_lt (lt_of_lt_of_le hy hY) (lt_of_lt_of_le hx hX))
    hr hc).trans (foldl_add_eq_finset_sum _ _)

/-- An entry of the product that neither loop reaches keeps the zero of
the allocation. -/
theorem mul_entry_miss (a b : Matrix) (hX : b.width ≤ a.width)
    {r c : Nat} (hc : c < a.width) (hmiss : ¬(r < a.height ∧ c < b.width)) :
    (a.mul b).entry r c = 0 := by
  show (a.mul b).values.getD (r * (a.mul b).width + c) 0 = 0
  rw [mul_width]
  have hmiss2 : ∀ y < a.height, ∀ x < b.width, y * a.width + x ≠ r * a.width + c := by
    intro y hy x hx he
    rcases idx_inj (lt_of_lt_of_le hx hX) hc he with ⟨h1, h2⟩
    exact hmiss ⟨h1 ▸ hy, h2 ▸ hx⟩
  exact (writeSeq_tableWrites_getD_miss (new b.height a.width) hmiss2).trans (new_getD ..)

@[simp] theorem smul_height (m : Matrix) (k : ℝ) : (m.smul k).height = m.height := rfl

@[simp] theorem smul_width (m : Matrix) (k : ℝ) : (m.smul k).width = m.width := rfl

@[simp] theorem smul_length (m : Matrix) (k : ℝ) :
    (m.smul k).values.length = m.values.length := by
  simp [smul]

theorem smul_entry (m : Matrix) (k : ℝ) {r c : Nat}
    (h : r * m.width + c < m.values.length) :
    (m.smul k).entry r c = m.entry r c * k := by
  simp only [smul, entry]
  rw [List.getD_eq_getElem?_getD, List.getD_eq_getElem?_getD, List.getElem?_map,
    List.getElem?_eq_getElem h]
  rfl

@[simp] theorem cofactorMatrix_height (m : Matrix) : m.cofactorMatrix.height = m.height := by
  simp [cofactorMatrix]

@[simp] theorem cofactorMatrix_width (m : Matrix) : m.cofactorMatrix.width = m.width := by
  simp [cofactorMatrix]

@[simp] theorem cofactorMatrix_length (m : Matrix) :
    m.cofactorMatrix.values.length = m.height * m.width := by
  simp [cofactorMatrix]

theorem cofactorMatrix_entry (m : Matrix) {r c : Nat} (hr : r < m.height) (hc : c < m.width) :
    m.cofactorMatrix.entry r c = m.cofactorVal r c := by
  have hg : ∀ y < m.height, ∀ x < m.width, ∀ y' < m.height, ∀ x' < m.width,
      y * m.width + x = y' * m.width + x' → y = y' ∧ x = x' :=
    fun y _ x hx y' _ x' hx' he => idx_inj hx hx' he
  rw [cofactorMatrix]
  simp only [entry, writeSeq_width, new_width]
  exact writeSeq_tableWrites_getD _ hg
    (fun y hy x hx => by simpa using idx_lt hy hx) hr hc

@[simp] theorem inverseVal_height (m : Matrix) : m.inverseVal.height = m.width := by
  simp [inverseVal]

@[simp] theorem inverseVal_width (m : Matrix) : m.inverseVal.width = m.height := by
  simp [inverseVal]

@[simp] theorem inverseVal_length (m : Matrix) :
    m.inverseVal.values.length = m.width * m.height := by
  simp [inverseVal]

/-- The inverse is the transposed cofactor matrix scaled by the
reciprocal determinant, entry by entry. -/
theorem inverseVal_entry (m : Matrix) {r c : Nat} (hr : r < m.width) (hc : c < m.height) :
    m.inverseVal.entry r c = m.cofactorVal c r * (1 / m.detVal) := by
  rw [inverseVal]
  rw [smul_entry]
  · rw [show m.cofactorMatrix.transpose.entry r c = m.cofactorMatrix.entry c r from
      transpose_entry _ (by simpa using hr) (by simpa using hc)]
    rw [cofactorMatrix_entry _ hc hr]
  · simp only [transpose_width, cofactorMatrix_width, cofactorMatrix_height, transpose_length,
      cofactorMatrix_length]
    exact idx_lt hr hc

/-! ### The submatrix filter -/

theorem map_getD_lt {α β : Type _} (l : List α) (f : α → β) (d : α) (e : β) {j : Nat}
    (hj : j < l.length) : (l.map f).getD j e = f (l.getD j d) := by
  rw [List.getD_eq_getElem?_getD, List.getElem?_map, List.getElem?_eq_getElem hj,
    List.getD_eq_getElem?_getD, List.getElem?_eq_getElem hj]
  rfl

/-- Filtering an enumeration on the index and keeping the values is the
same as reading the kept positions back out of the list. -/
theorem enumFrom_filter_map (v : List ℝ) (k : Nat) (p : Nat → Bool) :
    ((v.enumFrom k).filter fun q => p q.1).map Prod.snd
      = ((List.range v.length).filter fun i => p (k + i)).map (fun i => v.getD i 0) := by
  induction v generalizing k with
  | nil => simp
  | cons a v ih =>
    have tail :
        ((v.enumFrom (k + 1)).filter fun q => p q.1).map Prod.snd
          = (((List.range v.length).map Nat.succ).filter fun i => p (k + i)).map
              (fun i => (a :: v).getD i 0) := by
      rw [List.filter_map, List.map_map]
      have hcong : ∀ i ∈ List.range v.length,
          ((fun i => p (k + i)) ∘ Nat.succ) i = (fun i => p (k + 1 + i)) i := by
        intro i _
        simp only [Function.comp]
        congr 1
        omega
      rw [List.filter_congr hcong, ih (k + 1)]
      congr 1
    rw [List.enumFrom_cons, List.length_cons, List.range_succ_eq_map,
      List.filter_cons, List.filter_cons]
    by_cases hp : p k
    · simp only [hp, Nat.add_zero, if_pos, List.map_cons]
      rw [tail]
      rfl
    · simp only [Nat.add_zero, hp, Bool.false_eq_true, if_neg, if_false]
      rw [tail]

/-- Splitting the filtered flat index range of the submatrix into its
surviving rows. -/
theorem range_mul_filter (v : List ℝ) (h w r c : Nat) :
    (((List.range (h * w)).filter fun i => (i / w != r) && (i % w != c)).map
        (fun i => v.getD i 0))
      = ((List.range h).filter fun y => y != r).flatMap
          (fun y => ((List.range w).filter fun x => x != c).map
            (fun x => v.getD (y * w + x) 0)) := by
  induction h with
  | zero => simp
  | succ h ih =>
    have hrow : (h + 1) * w = h * w + w := by ring
    rw [hrow, List.range_add, List.filter_append, List.map_append, ih, List.range_succ,
      List.filter_append, List.flatMap_append]
    congr 1
    rw [List.filter_map]
    have hcong : ∀ x ∈ List.range w,
        ((fun i => (i / w != r) && (i % w != c)) ∘ (fun x => h * w + x)) x
          = (fun x => (h != r) && (x != c)) x := by
      intro x hx
      rw [List.mem_range] at hx
      simp only [Function.comp]
      rw [show h * w + x = h * w + x from rfl, idx_div h x w hx, idx_mod h x w hx]
    rw [List.filter_congr hcong]
    by_cases hhr : h = r
    · subst hhr
      simp
    · have hb : (h != r) = true := by simpa using hhr
      simp [hb, Function.comp]

/-- The explicit form of `range h` with one value removed. -/
theorem range_filter_ne (r s : Nat) :
    ((List.range (r + 1 + s)).filter fun y => y != r)
      = List.range r ++ (List.range s).map (fun k => r + (k + 1)) := by
  have h1 : r + 1 + s = r + (s + 1) := by ring
  rw [h1, List.range_add, List.filter_append, List.range_succ_eq_map]
  congr 1
  · refine List.filter_eq_self.2 ?_
    intro y hy
    rw [List.mem_range] at hy
    simpa using Nat.ne_of_lt hy
  · rw [List.map_cons, List.filter_cons]
    rw [if_neg (by simp)]
    have hall : ∀ a ∈ List.map ((fun x => r + x) ∘ Nat.succ) (List.range s),
        (a != r) = true := by
      intro a ha
      rcases List.mem_map.1 ha with ⟨k, _, rfl⟩
      simp only [Function.comp]
      simp only [bne_iff_ne, ne_eq]
      omega
    rw [List.map_map, List.filter_eq_self.2 hall]
    rfl

theorem range_filter_ne_length {r h : Nat} (hr : r < h) :
    ((List.range h).filter fun y => y != r).length = h - 1 := by
  obtain ⟨s, rfl⟩ : ∃ s, h = r + 1 + s := ⟨h - 1 - r, by omega⟩
  rw [range_filter_ne]
  simp

theorem range_filter_ne_getD {r h i : Nat} (hr : r < h) (hi : i < h - 1) :
    ((List.range h).filter fun y => y != r).getD i 0 = if i < r then i else i + 1 := by
  obtain ⟨s, rfl⟩ : ∃ s, h = r + 1 + s := ⟨h - 1 - r, by omega⟩
  rw [range_filter_ne]
  by_cases hir : i < r
  · rw [if_pos hir, List.getD_append _ _ _ _ (by simpa using hir),
      List.getD_eq_getElem?_getD, List.getElem?_eq_getElem (by simpa using hir)]
    simp
  · rw [if_neg hir, List.getD_append_right _ _ _ _ (by simpa using Nat.le_of_not_lt hir)]
    simp only [List.length_range]
    have his : i - r < s := by omega
    rw [map_getD_lt _ _ 0 0 (by simpa using his)]
    rw [List.getD_eq_getElem?_getD, List.getElem?_eq_getElem (by simpa using his)]
    simp only [List.getElem_range, Option.getD_some]
    omega

theorem length_flatMap_const {α : Type} (l : List α) (f : α → List ℝ) (L : Nat)
    (h : ∀ y ∈ l, (f y).length = L) : (l.flatMap f).length = l.length * L := by
  induction l with
  | nil => simp
  | cons a l ih =>
    rw [List.flatMap_cons, List.length_append, h a (List.mem_cons_self a l),
      ih (fun y hy => h y (List.mem_cons_of_mem a hy)), List.length_cons]
    ring

theorem flatMap_getD (l : List Nat) (f : Nat → List ℝ) (L : Nat)
    (h : ∀ y ∈ l, (f y).length = L) {i j : Nat} (hi : i < l.length) (hj : j < L) :
    (l.flatMap f).getD (i * L + j) 0 = (f (l.getD i 0)).getD j 0 := by
  induction l generalizing i with
  | nil => cases hi
  | cons a l ih =>
    rcases i with _ | i
    · rw [List.flatMap_cons, Nat.zero_mul, Nat.zero_add,
        List.getD_append _ _ _ _ (by rw [h a (List.mem_cons_self a l)]; exact hj)]
      rfl
    · rw [List.flatMap_cons,
        List.getD_append_right _ _ _ _
          (by rw [h a (List.mem_cons_self a l)]; calc L ≤ i * L + L := by omega
            _ = (i + 1) * L := by ring
            _ ≤ (i + 1) * L + j := by omega)]
      rw [h a (List.mem_cons_self a l)]
      have harith : (i + 1) * L + j - L = i * L + j := by
        have : (i + 1) * L = i * L + L := by ring
        omega
      rw [harith, ih (fun y hy => h y (List.mem_cons_of_mem a hy)) (by simpa using hi)]
      rfl

@[simp] theorem submatrix_height (m : Matrix) (r c : Nat) :
    (m.submatrix r c).height = m.height - 1 := rfl

@[simp] theorem submatrix_width (m : Matrix) (r c : Nat) :
    (m.submatrix r c).width = m.width - 1 := rfl

/-- The kept values of the submatrix, row by row. -/
theorem submatrix_values (m : Matrix) (r c : Nat)
    (hv : m.values.length = m.height * m.width) :
    (m.submatrix r c).values
      = ((List.range m.height).filter fun y => y != r).flatMap
          (fun y => ((List.range m.width).filter fun x => x != c).map
            (fun x => m.values.getD (y * m.width + x) 0)) := by
  have h1 := enumFrom_filter_map m.values 0
    (fun i => (i / m.width != r) && (i % m.width != c))
  simp only [Nat.zero_add] at h1
  have h2 : (m.submatrix r c).values
      = (((List.range m.values.length).filter fun i =>
          (i / m.width != r) && (i % m.width != c)).map (fun i => m.values.getD i 0)) := by
    rw [submatrix]
    exact h1
  rw [h2, hv]
  exact range_mul_filter m.values m.height m.width r c

theorem submatrix_length (m : Matrix) {r c : Nat}
    (hv : m.values.length = m.height * m.width) (hr : r < m.height) (hc : c < m.width) :
    (m.submatrix r c).values.length = (m.height - 1) * (m.width - 1) := by
  rw [submatrix_values m r c hv]
  rw [length_flatMap_const _ _ (m.width - 1)]
  · rw [range_filter_ne_length hr]
  · intro y _
    rw [List.length_map, range_filter_ne_length hc]

/-- The entries of the submatrix: row and column indices skip the dropped
row and column. -/
theorem submatrix_entry (m : Matrix) {r c i j : Nat}
    (hv : m.values.length = m.height * m.width) (hr : r < m.height) (hc : c < m.width)
    (hi : i < m.height - 1) (hj : j < m.width - 1) :
    (m.submatrix r c).entry i j
      = m.entry (if i < r then i else i + 1) (if j < c then j else j + 1) := by
  have hw1 : (m.submatrix r c).width = m.width - 1 := rfl
  rw [entry, hw1, submatrix_values m r c hv]
  rw [flatMap_getD _ _ (m.width - 1)
    (fun y _ => by rw [List.length_map, range_filter_ne_length hc])
    (by rw [range_filter_ne_length hr]; exact hi) hj]
  rw [map_getD_lt _ _ 0 0 (by rw [range_filter_ne_length hc]; exact hj)]
  rw [range_filter_ne_getD hr hi, range_filter_ne_getD hc hj]
  rfl

/-! ### Bridge to the Mathlib matrices -/

/-- The semantic reading of a flat-list matrix as a square Mathlib
matrix of size n. -/
def toMat (m : Matrix) (n : Nat) : MMatrix n := Matrix.of fun i j => m.entry i j

theorem toMat_apply (m : Matrix) (n : Nat) (i j : Fin n) : toMat m n i j = m.entry i j := rfl

theorem succAbove_val {n : Nat} (p : Fin (n + 1)) (j : Fin n) :
    ((p.succAbove j : Fin (n + 1)) : ℕ) = if (j : ℕ) < (p : ℕ) then (j : ℕ) else (j : ℕ) + 1 := by
  rw [Fin.succAbove]
  by_cases h : Fin.castSucc j < p
  · rw [if_pos h, if_pos (by simpa [Fin.lt_def] using h)]
    rfl
  · rw [if_neg h, if_neg (by simpa [Fin.lt_def] using h)]
    rfl

/-- Dropping a row and a column commutes with the semantic reading. -/
theorem toMat_submatrix (m : Matrix) {n : Nat}
    (hv : m.values.length = m.height * m.width)
    (hh : m.height = n + 1) (hw : m.width = n + 1) (r c : Fin (n + 1)) :
    toMat (m.submatrix r c) n
      = (toMat m (n + 1)).submatrix r.succAbove c.succAbove := by
  ext i j
  rw [Matrix.submatrix_apply, toMat_apply, toMat_apply]
  rw [submatrix_entry m hv (by omega) (by omega) (by omega) (by omega)]
  congr 1
  · rw [succAbove_val]
  · rw [succAbove_val]

/-- The branch sign of Matrix::cofactor as a power of -1. -/
theorem cofactor_sign (k : Nat) (d : ℝ) :
    (if k % 2 = 1 then -d else d) = (-1) ^ k * d := by
  rcases Nat.even_or_odd k with hk | hk
  · rw [if_neg (by rw [Nat.even_iff] at hk; omega), hk.neg_one_pow, one_mul]
  · rw [if_pos (Nat.odd_iff.1 hk), hk.neg_one_pow]
    ring

/-- The cofactor-expansion recursion agrees with the Mathlib determinant
for every square matrix of size at least 2.  (Sizes 0 and 1 genuinely
disagree: the code gives 0 for a 1 × 1 matrix, because the expansion
bottoms out in the empty 0 × 0 loop.) -/
theorem detN_eq_det : ∀ n : Nat, 2 ≤ n → ∀ m : Matrix,
    m.values.length = m.height * m.width → m.height = n → m.width = n →
    detN n m = (toMat m n).det := by
  refine Nat.le_induction ?_ ?_
  · intro m hv hh hw
    rw [show detN 2 m = if m.height = 2 then
        m.values.getD 0 0 * m.values.getD 3 0 - m.values.getD 1 0 * m.values.getD 2 0
      else _ from rfl]
    rw [if_pos hh, Matrix.det_fin_two]
    simp only [toMat_apply, entry, hw]
    norm_num
  · intro n h2 ih m hv hh hw
    have hne : ¬m.height = 2 := by omega
    rw [show detN (n + 1) m = if m.height = 2 then
        m.values.getD 0 0 * m.values.getD 3 0 - m.values.getD 1 0 * m.values.getD 2 0
      else (List.range m.width).foldl
        (fun out x =>
          out + m.values.getD x 0 *
            (if (0 + x) % 2 = 1 then -(detN n (m.submatrix 0 x))
             else detN n (m.submatrix 0 x)))
        0 from rfl]
    rw [if_neg hne, foldl_add_eq_finset_sum, Matrix.det_succ_row_zero, hw,
      ← Fin.sum_univ_eq_sum_range]
    refine Finset.sum_congr rfl fun j _ => ?_
    have hsub : detN n (m.submatrix 0 ↑j)
        = ((toMat m (n + 1)).submatrix Fin.succ j.succAbove).det := by
      rw [ih (m.submatrix 0 ↑j)
        (by rw [submatrix_length m hv (by omega) (by omega)]; simp [hh, hw])
        (by simp [hh]) (by simp [hw])]
      have h0 := toMat_submatrix m hv hh hw 0 j
      simp only [Fin.val_zero] at h0
      rw [h0, Fin.succAbove_zero]
    have hE : toMat m (n + 1) 0 j = m.values.getD (j : ℕ) 0 := by
      rw [toMat_apply, entry]
      norm_num
    rw [hsub, Nat.zero_add, cofactor_sign, hE]
    ring

/-- Matrix::determinant (after the square guard) agrees with the Mathlib
determinant from size 2 up. -/
theorem detVal_eq_det (m : Matrix) {n : Nat} (h2 : 2 ≤ n)
    (hv : m.values.length = m.height * m.width) (hh : m.height = n) (hw : m.width = n) :
    m.detVal = (toMat m n).det := by
  rw [detVal, hh]
  exact detN_eq_det n h2 m hv hh hw

/-- Matrix::cofactor agrees with the (transposed) adjugate entries of the
Mathlib matrix, for squares of size at least 3 (sizes 1 and 2 genuinely
disagree: their minors bottom out in the broken 1 x 1 determinant). -/
theorem cofactorVal_eq_adjugate (m : Matrix) {n : Nat} (h2 : 2 ≤ n)
    (hv : m.values.length = m.height * m.width)
    (hh : m.height = n + 1) (hw : m.width = n + 1) (r c : Fin (n + 1)) :
    m.cofactorVal ↑r ↑c = (toMat m (n + 1)).adjugate c r := by
  rw [Matrix.adjugate_fin_succ_eq_det_submatrix]
  rw [cofactorVal, minorVal, cofactor_sign]
  have hd : (m.submatrix ↑r ↑c).detVal
      = ((toMat m (n + 1)).submatrix r.succAbove c.succAbove).det := by
    rw [detVal_eq_det (m.submatrix ↑r ↑c) h2
      (by rw [submatrix_length m hv (by omega) (by omega)]; simp [hh, hw])
      (by simp [hh]) (by simp [hw])]
    rw [toMat_submatrix m hv hh hw r c]
  rw [hd]

/-- Matrix::inverse read semantically: the adjugate scaled by the
reciprocal determinant. -/
theorem toMat_inverseVal (m : Matrix) {n : Nat} (h2 : 2 ≤ n)
    (hv : m.values.length = m.height * m.width)
    (hh : m.height = n + 1) (hw : m.width = n + 1) :
    toMat m.inverseVal (n + 1) = (1 / m.detVal) • (toMat m (n + 1)).adjugate := by
  ext i j
  rw [Matrix.smul_apply, toMat_apply]
  rw [inverseVal_entry m (by omega) (by omega)]
  rw [show ((j : ℕ)) = ((j : Fin (n + 1)) : ℕ) from rfl]
  rw [cofactorVal_eq_adjugate m h2 hv hh hw j i]
  rw [smul_eq_mul]
  ring

/-- Matrix::mul read semantically, on same-size square operands. -/
theorem toMat_mul (a b : Matrix) {n : Nat}
    (hah : a.height = n) (haw : a.width = n) (hbh : b.height = n) (hbw : b.width = n) :
    toMat (a.mul b) n = toMat a n * toMat b n := by
  ext i j
  rw [Matrix.mul_apply, toMat_apply]
  rw [mul_entry_hit a b (by omega) (by omega) (by omega) (by omega)]
  rw [dotRC, haw, ← Fin.sum_univ_eq_sum_range (fun k => a.entry ↑i k * b.entry k ↑j) n]
  rfl

/-- Matrix::identity read semantically. -/
theorem toMat_identity (n : Nat) : toMat (identity n n) n = 1 := by
  ext i j
  rw [toMat_apply, identity_entry i.isLt j.isLt, Matrix.one_apply]
  by_cases h : (i : ℕ) = (j : ℕ)
  · rw [if_pos h, if_pos (Fin.ext h)]
  · rw [if_neg h, if_neg (fun e => h (congrArg Fin.val e))]

/-- Pointwise equality of the stored values gives the zipped approximate
equality of the PartialEq impl. -/
theorem zip_approx_of_pointwise (l1 l2 : List ℝ) (hlen : l1.length = l2.length)
    (h : ∀ i < l1.length, |l1.getD i 0 - l2.getD i 0| ≤ eps) :
    ∀ p ∈ l1.zip l2, |p.1 - p.2| ≤ eps := by
  induction l1 generalizing l2 with
  | nil => intro p hp; simp at hp
  | cons a l1 ih =>
    cases l2 with
    | nil => intro p hp; simp at hp
    | cons b l2 =>
      intro p hp
      rcases List.mem_cons.1 hp with rfl | hp
      · simpa using h 0 (by simp)
      · exact ih l2 (by simpa using hlen)
          (fun i hi => by simpa using h (i + 1) (by simpa using hi)) p hp

theorem getD_eq_entry (p : Matrix) (i : Nat) :
    p.values.getD i 0 = p.entry (i / p.width) (i % p.width) := by
  rw [entry]
  congr 1
  rw [Nat.mul_comm]
  exact (Nat.div_add_mod i p.width).symm

/-- Matrices with the same semantic reading compare equal under the
PartialEq impl. -/
theorem approxEq_of_toMat_eq {n : Nat} (hn : 0 < n) (p q : Matrix)
    (ph : p.height = n) (pw : p.width = n) (pl : p.values.length = n * n)
    (qh : q.height = n) (qw : q.width = n) (ql : q.values.length = n * n)
    (he : toMat p n = toMat q n) : p.approxEq q := by
  refine ⟨by omega, by omega, ?_⟩
  refine zip_approx_of_pointwise _ _ (by omega) ?_
  intro i hi
  rw [pl] at hi
  have hdiv : i / n < n := by rwa [Nat.div_lt_iff_lt_mul hn]
  have hmod : i % n < n := Nat.mod_lt _ hn
  have h1 : p.values.getD i 0 = toMat p n ⟨i / n, hdiv⟩ ⟨i % n, hmod⟩ := by
    rw [toMat_apply, getD_eq_entry, pw]
  have h2 : q.values.getD i 0 = toMat q n ⟨i / n, hdiv⟩ ⟨i % n, hmod⟩ := by
    rw [toMat_apply, getD_eq_entry, qw]
  rw [h1, h2, he, sub_self, abs_zero]
  norm_num [eps]

/-- A pointwise consequence of the PartialEq comparison, used to exhibit
inequality witnesses. -/
theorem approxEq_getD (p q : Matrix) (h : p.approxEq q) {i : Nat}
    (hi : i < p.values.length) (hi2 : i < q.values.length) :
    |p.values.getD i 0 - q.values.getD i 0| ≤ eps := by
  obtain ⟨_, _, hz⟩ := h
  have hlt : i < (p.values.zip q.values).length := by
    rw [List.length_zip]
    omega
  have h1 : (p.values.zip q.values)[i] = (p.values[i], q.values[i]) :=
    @List.getElem_zip _ _ p.values q.values i hlt
  have hmem : (p.values.get ⟨i, hi⟩, q.values.get ⟨i, hi2⟩) ∈ p.values.zip q.values := by
    simp only [List.get_eq_getElem]
    rw [← h1]
    exact List.getElem_mem hlt
  have := hz _ hmem
  rwa [List.getD_eq_getElem?_getD, List.getElem?_eq_getElem hi,
    List.getD_eq_getElem?_getD, List.getElem?_eq_getElem hi2]

/-- The empty expansion loop of a height-1 matrix: every cofactor term
multiplies by the 0 x 0 determinant, which is 0. -/
theorem detN_one (m : Matrix) (h1 : m.height ≠ 2) : detN 1 m = 0 := by
  rw [show detN 1 m = if m.height = 2 then
      m.values.getD 0 0 * m.values.getD 3 0 - m.values.getD 1 0 * m.values.getD 2 0
    else (List.range m.width).foldl
      (fun out x =>
        out + m.values.getD x 0 *
          (if (0 + x) % 2 = 1 then -(detN 0 (m.submatrix 0 x))
           else detN 0 (m.submatrix 0 x)))
      0 from rfl]
  rw [if_neg h1, foldl_add_eq_finset_sum]
  simp [detN]

/-- On a 2 x 2 matrix every cofactor of the source is 0: its minors are
1 x 1 determinants, which the expansion computes as 0. -/
theorem cofactorVal_of_two (m : Matrix) (h2 : m.height = 2) (r c : Nat) :
    m.cofactorVal r c = 0 := by
  have hmv : m.minorVal r c = 0 := by
    rw [minorVal, detVal]
    rw [show (m.submatrix r c).height = 1 from by rw [submatrix_height, h2]]
    exact detN_one _ (by rw [submatrix_height, h2]; omega)
  rw [cofactorVal, hmv]
  simp

/-- The 2 x 2 closed form of the determinant. -/
theorem detN_two (m : Matrix) (h2 : m.height = 2) :
    detN 2 m
      = m.values.getD 0 0 * m.values.getD 3 0 - m.values.getD 1 0 * m.values.getD 2 0 := by
  rw [show detN 2 m = if m.height = 2 then
      m.values.getD 0 0 * m.values.getD 3 0 - m.values.getD 1 0 * m.values.getD 2 0
    else (List.range m.width).foldl
      (fun out x =>
        out + m.values.getD x 0 *
          (if (0 + x) % 2 = 1 then -(detN 1 (m.submatrix 0 x))
           else detN 1 (m.submatrix 0 x)))
      0 from rfl]
  rw [if_pos h2]

end Matrix

/-! ## Claims -/

/-- C9: on every non-square matrix, requesting the determinant — and
hence the inverse, which computes the determinant — signals the fatal
panic (modelled as none) rather than returning a numeric result. -/
theorem claim_C9_nonsquare_determinant_panics (m : Matrix) (h : m.height ≠ m.width) :
    m.determinant = none ∧ m.inverse = none := by
  constructor
  · rw [Matrix.determinant, if_pos h]
  · rw [Matrix.inverse, if_pos h]

/-- C9 witness: a concrete 2 x 3 matrix. -/
theorem claim_C9_witness :
    (Matrix.fromValues 2 3 [0, 0, 0, 0, 0, 0]).determinant = none ∧
      (Matrix.fromValues 2 3 [0, 0, 0, 0, 0, 0]).inverse = none :=
  claim_C9_nonsquare_determinant_panics _ (by decide)

/-- C2 as frozen is false on the code: countered below for 2 x 2, where
every cofactor of the source is 0 (minors bottom out in the broken 1 x 1
determinant), so the inverse is the zero matrix.  Amended to squares of
size at least 3, and with A restricted to the same square shape as B in
the second part: the inverse is the transposed cofactor matrix scaled by
the reciprocal determinant, M * inverse(M) equals the identity under the
tolerance comparison, and (A * B) * inverse(B) equals A likewise. -/
theorem claim_C2_inverse_roundtrip {n : Nat} (h3 : 3 ≤ n) (m : Matrix)
    (hv : m.values.length = n * n) (hh : m.height = n) (hw : m.width = n)
    (hinv : m.isInvertible) :
    (∀ r < n, ∀ c < n,
      m.inverseVal.entry r c = m.cofactorVal c r * (1 / m.detVal)) ∧
    (m.mul m.inverseVal).approxEq (Matrix.identity n n) ∧
    (∀ a : Matrix, a.values.length = n * n → a.height = n → a.width = n →
      ((a.mul m).mul m.inverseVal).approxEq a) := by
  obtain ⟨k, rfl⟩ : ∃ k, n = k + 1 := ⟨n - 1, by omega⟩
  have h2 : 2 ≤ k := by omega
  have hd : m.detVal ≠ 0 := hinv
  have hv' : m.values.length = m.height * m.width := by rw [hh, hw]; exact hv
  have hdet : m.detVal = (Matrix.toMat m (k + 1)).det :=
    Matrix.detVal_eq_det m (by omega) hv' hh hw
  have hMinv : Matrix.toMat m.inverseVal (k + 1)
      = (1 / m.detVal) • (Matrix.toMat m (k + 1)).adjugate :=
    Matrix.toMat_inverseVal m h2 hv' hh hw
  have hM1 : Matrix.toMat m (k + 1) * Matrix.toMat m.inverseVal (k + 1) = 1 := by
    rw [hMinv, Matrix.mul_smul, Matrix.mul_adjugate, ← hdet, smul_smul, one_div,
      inv_mul_cancel₀ hd, one_smul]
  refine ⟨?_, ?_, ?_⟩
  · intro r hr c hc
    exact Matrix.inverseVal_entry m (by omega) (by omega)
  · refine @Matrix.approxEq_of_toMat_eq (k + 1) (by omega) _ _ (by simp [hw]) (by simp [hw])
      (by simp [hw]) (by simp) (by simp) (by simp) ?_
    rw [Matrix.toMat_mul m m.inverseVal hh hw (by simp [hw]) (by simp [hh]), hM1,
      Matrix.toMat_identity]
  · intro a hva hah haw
    have hAM : Matrix.toMat (a.mul m) (k + 1)
        = Matrix.toMat a (k + 1) * Matrix.toMat m (k + 1) :=
      Matrix.toMat_mul a m hah haw hh hw
    refine @Matrix.approxEq_of_toMat_eq (k + 1) (by omega) _ _ (by simp [hh, hw])
      (by simp [haw, hw]) (by simp [hw, haw]) hah haw hva ?_
    rw [Matrix.toMat_mul (a.mul m) m.inverseVal (by simp [hh]) (by simp [haw])
      (by simp [hw]) (by simp [hh]), hAM, Matrix.mul_assoc, hM1, Matrix.mul_one]

/-- The identity matrices are invertible in the sense of the source
(cofactor-expansion determinant 1), for sizes at least 2. -/
theorem identity_detVal_one {n : Nat} (h2 : 2 ≤ n) : (Matrix.identity n n).detVal = 1 := by
  rw [Matrix.detVal_eq_det (Matrix.identity n n) h2 (by simp) (by simp) (by simp),
    Matrix.toMat_identity, Matrix.det_one]

/-- C2 witness: the amended statement applied to the 3 x 3 identity. -/
theorem claim_C2_witness :
    (∀ r < 3, ∀ c < 3,
      (Matrix.identity 3 3).inverseVal.entry r c
        = (Matrix.identity 3 3).cofactorVal c r * (1 / (Matrix.identity 3 3).detVal)) ∧
    ((Matrix.identity 3 3).mul (Matrix.identity 3 3).inverseVal).approxEq
      (Matrix.identity 3 3) ∧
    (∀ a : Matrix, a.values.length = 3 * 3 → a.height = 3 → a.width = 3 →
      ((a.mul (Matrix.identity 3 3)).mul (Matrix.identity 3 3).inverseVal).approxEq a) :=
  claim_C2_inverse_roundtrip (by norm_num) (Matrix.identity 3 3) (by simp) (by simp)
    (by simp) (by rw [Matrix.isInvertible, identity_detVal_one (by norm_num)]; norm_num)

/-- C2 counterexample: the 2 x 2 identity is invertible by the code
(its determinant uses the correct 2 x 2 closed form and is 1), yet
multiplying it by its computed inverse does not give the identity: the
computed inverse of every 2 x 2 matrix is the zero matrix. -/
theorem claim_C2_counterexample :
    (Matrix.identity 2 2).isInvertible ∧
      ¬ ((Matrix.identity 2 2).mul (Matrix.identity 2 2).inverseVal).approxEq
          (Matrix.identity 2 2) := by
  have hdet : (Matrix.identity 2 2).detVal = 1 := identity_detVal_one (by norm_num)
  constructor
  · rw [Matrix.isInvertible, hdet]
    norm_num
  · intro h
    have hb := @Matrix.approxEq_getD _ _ h 0 (by simp) (by simp)
    have hp : ((Matrix.identity 2 2).mul (Matrix.identity 2 2).inverseVal).values.getD 0 0
        = 0 := by
      rw [Matrix.getD_eq_entry]
      simp only [Matrix.mul_width, Matrix.identity_width, Nat.zero_div, Nat.zero_mod]
      rw [Matrix.mul_entry_hit _ _ (by simp) (by simp) (by simp) (by simp)]
      rw [Matrix.dotRC]
      refine Finset.sum_eq_zero fun i hi => ?_
      rw [Finset.mem_range] at hi
      rw [Matrix.inverseVal_entry _ (by simpa using hi) (by simp)]
      rw [Matrix.cofactorVal_of_two _ (by simp) _ _]
      ring
    have hq : (Matrix.identity 2 2).values.getD 0 0 = 1 := by
      rw [Matrix.getD_eq_entry]
      simp only [Matrix.identity_width, Nat.zero_div, Nat.zero_mod]
      rw [Matrix.identity_entry (by norm_num) (by norm_num)]
      norm_num
    rw [hp, hq] at hb
    rw [RT.eps] at hb
    norm_num at hb

/-- Matrix * Tuple, written out: the 4 x 1 tuple column against the rows
of a 4 x 4 matrix. -/
theorem Matrix.mulTuple_eq (m : Matrix) (hh : m.height = 4) (hw : m.width = 4) (t : Tuple) :
    m.mulTuple t = Tuple.new
      (m.entry 0 0 * t.x + m.entry 0 1 * t.y + m.entry 0 2 * t.z + m.entry 0 3 * t.w)
      (m.entry 1 0 * t.x + m.entry 1 1 * t.y + m.entry 1 2 * t.z + m.entry 1 3 * t.w)
      (m.entry 2 0 * t.x + m.entry 2 1 * t.y + m.entry 2 2 * t.z + m.entry 2 3 * t.w)
      (m.entry 3 0 * t.x + m.entry 3 1 * t.y + m.entry 3 2 * t.z + m.entry 3 3 * t.w) := by
  have hcol : ∀ r : Nat, r < 4 →
      (m.mul (Matrix.fromValues 4 1 [t.x, t.y, t.z, t.w])).entry r 0
        = m.entry r 0 * t.x + m.entry r 1 * t.y + m.entry r 2 * t.z + m.entry r 3 * t.w := by
    intro r hr
    rw [Matrix.mul_entry_hit _ _ (by rw [hw]; show (1 : Nat) ≤ 4; omega)
      (by rw [hh]; show (4 : Nat) ≤ 4; omega) (by omega) (by show (0 : Nat) < 1; omega)]
    rw [Matrix.dotRC, hw]
    rw [show (4 : Nat) = 3 + 1 from rfl, Finset.sum_range_succ, Finset.sum_range_succ,
      Finset.sum_range_succ, Finset.sum_range_succ, Finset.sum_range_zero]
    rw [show (Matrix.fromValues 4 1 [t.x, t.y, t.z, t.w]).entry 0 0 = t.x from rfl,
      show (Matrix.fromValues 4 1 [t.x, t.y, t.z, t.w]).entry 1 0 = t.y from rfl,
      show (Matrix.fromValues 4 1 [t.x, t.y, t.z, t.w]).entry 2 0 = t.z from rfl,
      show (Matrix.fromValues 4 1 [t.x, t.y, t.z, t.w]).entry 3 0 = t.w from rfl]
    ring
  rw [Matrix.mulTuple]
  rw [hcol 0 (by norm_num), hcol 1 (by norm_num), hcol 2 (by norm_num), hcol 3 (by norm_num)]

/-- C5 as frozen is false on the code: countered below.  Amended: the
product allocates its result as new(rhs.height, self.width) and indexes
it with self.width, so (for the write pattern to stay in bounds:
rhs.width at most self.width, self.height at most rhs.height) the result
has B-height rows and A-width columns, the entries both loops reach are
the row-by-column dot products, and the remaining cells stay 0. -/
theorem claim_C5_mul_shape (a b : Matrix) (hX : b.width ≤ a.width) (hY : a.height ≤ b.height) :
    (a.mul b).height = b.height ∧ (a.mul b).width = a.width ∧
    ∀ r < b.height, ∀ c < a.width,
      (a.mul b).entry r c =
        if r < a.height ∧ c < b.width then
          ∑ i ∈ Finset.range a.width, a.entry r i * b.entry i c
        else 0 := by
  refine ⟨Matrix.mul_height a b, Matrix.mul_width a b, ?_⟩
  intro r _ c hc
  by_cases hin : r < a.height ∧ c < b.width
  · rw [if_pos hin]
    exact Matrix.mul_entry_hit a b hX hY hin.1 hin.2
  · rw [if_neg hin]
    exact Matrix.mul_entry_miss a b hX hc hin

/-- C5 witness: two concrete 2 x 2 matrices. -/
theorem claim_C5_witness :
    ((Matrix.fromValues 2 2 [1, 2, 3, 4]).mul (Matrix.fromValues 2 2 [5, 6, 7, 8])).height
        = (Matrix.fromValues 2 2 [5, 6, 7, 8]).height ∧
    ((Matrix.fromValues 2 2 [1, 2, 3, 4]).mul (Matrix.fromValues 2 2 [5, 6, 7, 8])).width
        = (Matrix.fromValues 2 2 [1, 2, 3, 4]).width ∧
    ∀ r < (Matrix.fromValues 2 2 [5, 6, 7, 8]).height,
      ∀ c < (Matrix.fromValues 2 2 [1, 2, 3, 4]).width,
      ((Matrix.fromValues 2 2 [1, 2, 3, 4]).mul (Matrix.fromValues 2 2 [5, 6, 7, 8])).entry r c =
        if r < (Matrix.fromValues 2 2 [1, 2, 3, 4]).height
            ∧ c < (Matrix.fromValues 2 2 [5, 6, 7, 8]).width then
          ∑ i ∈ Finset.range (Matrix.fromValues 2 2 [1, 2, 3, 4]).width,
            (Matrix.fromValues 2 2 [1, 2, 3, 4]).entry r i
              * (Matrix.fromValues 2 2 [5, 6, 7, 8]).entry i c
        else 0 :=
  claim_C5_mul_shape (Matrix.fromValues 2 2 [1, 2, 3, 4])
    (Matrix.fromValues 2 2 [5, 6, 7, 8]) (by decide) (by decide)

/-- C5 counterexample: a 1 x 2 matrix times a 2 x 3 matrix does not give
a 1 x 3 product — the code allocates the product as 2 x 2. -/
theorem claim_C5_counterexample :
    ¬ (((Matrix.fromValues 1 2 [1, 2]).mul
          (Matrix.fromValues 2 3 [1, 2, 3, 4, 5, 6])).height = 1 ∧
       ((Matrix.fromValues 1 2 [1, 2]).mul
          (Matrix.fromValues 2 3 [1, 2, 3, 4, 5, 6])).width = 3) := by
  intro h
  have h1 := h.1
  rw [Matrix.mul_height] at h1
  exact absurd h1 (by decide)

/-- C10: a translation matrix leaves every vector (w = 0) unchanged, so
a ray direction is unaffected by a translation transform. -/
theorem claim_C10_translation_fixes_vectors (x y z a b c : ℝ) :
    (translation x y z).mulTuple (Tuple.vector a b c) = Tuple.vector a b c := by
  have hval : (translation x y z).values
      = [1, 0, 0, x, 0, 1, 0, y, 0, 0, 1, z, 0, 0, 0, 1] := rfl
  have hwid : (translation x y z).width = 4 := rfl
  rw [Matrix.mulTuple_eq _ rfl rfl]
  simp only [Matrix.entry, hval, hwid]
  norm_num [Tuple.vector, Tuple.new, List.getD]

/-! ## Hit selection (C4) -/

namespace Intersection

/-- The fold of min_by started on some x yields an element of x :: l that
is minimal among x and the list. -/
theorem minBy_fold_spec (l : List Intersection) :
    ∀ x : Intersection, ∃ y,
      l.foldl
        (fun acc y =>
          match acc with
          | none => some y
          | some x => if y.t < x.t then some y else some x)
        (some x) = some y
      ∧ (y = x ∨ y ∈ l) ∧ y.t ≤ x.t ∧ ∀ j ∈ l, y.t ≤ j.t := by
  induction l with
  | nil => exact fun x => ⟨x, rfl, Or.inl rfl, le_refl _, by simp⟩
  | cons b l ih =>
    intro x
    rw [List.foldl_cons]
    by_cases hb : b.t < x.t
    · obtain ⟨y, hy, hmem, hle, hall⟩ := ih b
      rw [show (match some x with
          | none => some b
          | some x => if b.t < x.t then some b else some x) = some b from by
        rw [show (match some x with
            | none => some b
            | some x => if b.t < x.t then some b else some x)
          = if b.t < x.t then some b else some x from rfl, if_pos hb]]
      refine ⟨y, hy, ?_, hle.trans (le_of_lt hb), ?_⟩
      · rcases hmem with rfl | hm
        · exact Or.inr (List.mem_cons_self _ _)
        · exact Or.inr (List.mem_cons_of_mem _ hm)
      · intro j hj
        rcases List.mem_cons.1 hj with rfl | hj
        · exact hle
        · exact hall j hj
    · obtain ⟨y, hy, hmem, hle, hall⟩ := ih x
      rw [show (match some x with
          | none => some b
          | some x => if b.t < x.t then some b else some x) = some x from by
        rw [show (match some x with
            | none => some b
            | some x => if b.t < x.t then some b else some x)
          = if b.t < x.t then some b else some x from rfl, if_neg hb]]
      refine ⟨y, hy, ?_, hle, ?_⟩
      · rcases hmem with rfl | hm
        · exact Or.inl rfl
        · exact Or.inr (List.mem_cons_of_mem _ hm)
      · intro j hj
        rcases List.mem_cons.1 hj with rfl | hj
        · exact hle.trans (le_of_not_lt hb)
        · exact hall j hj

/-- min_by over the empty list is none, otherwise some minimal element of
the list. -/
theorem minBy_eq_none_iff (l : List Intersection) : minBy l = none ↔ l = [] := by
  cases l with
  | nil => simp [minBy]
  | cons a l =>
    obtain ⟨y, hy, _, _, _⟩ := minBy_fold_spec l a
    rw [minBy, List.foldl_cons]
    rw [show (match (none : Option Intersection) with
        | none => some a
        | some x => if a.t < x.t then some a else some x) = some a from rfl]
    rw [hy]
    simp

theorem minBy_eq_some (l : List Intersection) (y : Intersection) (h : minBy l = some y) :
    y ∈ l ∧ ∀ j ∈ l, y.t ≤ j.t := by
  cases l with
  | nil => cases h
  | cons a l =>
    obtain ⟨y', hy', hmem, hle, hall⟩ := minBy_fold_spec l a
    rw [minBy, List.foldl_cons] at h
    rw [show (match (none : Option Intersection) with
        | none => some a
        | some x => if a.t < x.t then some a else some x) = some a from rfl] at h
    rw [hy'] at h
    obtain rfl : y' = y := Option.some_injective _ h
    constructor
    · rcases hmem with rfl | hm
      · exact List.mem_cons_self _ _
      · exact List.mem_cons_of_mem _ hm
    · intro j hj
      rcases List.mem_cons.1 hj with rfl | hj
      · exact hle
      · exact hall j hj

end Intersection

/-- C4: from_hit returns none exactly when the list is empty or every t
is negative, otherwise an intersection of the list with the smallest
non-negative t; over t = [5, 7, -3, 2] it returns the one with t = 2. -/
theorem claim_C4_from_hit (l : List Intersection) :
    (Intersection.fromHit l = none ↔ ∀ i ∈ l, i.t < 0) ∧
    (∀ i : Intersection, Intersection.fromHit l = some i →
      i ∈ l ∧ 0 ≤ i.t ∧ ∀ j ∈ l, 0 ≤ j.t → i.t ≤ j.t) ∧
    Intersection.fromHit [⟨5⟩, ⟨7⟩, ⟨-3⟩, ⟨2⟩] = some ⟨2⟩ := by
  refine ⟨?_, ?_, ?_⟩
  · rw [Intersection.fromHit, Intersection.minBy_eq_none_iff, List.filter_eq_nil_iff]
    constructor
    · intro h i hi
      by_contra hlt
      exact h i hi (by simpa using le_of_not_lt hlt)
    · intro h i hi
      simpa using not_le_of_lt (h i hi)
  · intro i hsome
    rw [Intersection.fromHit] at hsome
    obtain ⟨hmem, hall⟩ := Intersection.minBy_eq_some _ _ hsome
    rw [List.mem_filter] at hmem
    refine ⟨hmem.1, by simpa using hmem.2, ?_⟩
    intro j hj hjt
    exact hall j (List.mem_filter.2 ⟨hj, by simpa using hjt⟩)
  · rw [Intersection.fromHit]
    rw [show List.filter (fun i => decide (0 ≤ i.t))
        [(⟨5⟩ : Intersection), ⟨7⟩, ⟨-3⟩, ⟨2⟩] = [⟨5⟩, ⟨7⟩, ⟨2⟩] from by
      simp only [List.filter_cons, List.filter_nil, decide_eq_true_eq]
      norm_num]
    rw [Intersection.minBy]
    simp only [List.foldl_cons, List.foldl_nil]
    norm_num

/-! ## The sphere claims (C1, C6) -/

/-- The computed inverse of the 4 x 4 identity reads back as the
identity. -/
theorem toMat_inverseVal_identity4 : Matrix.toMat (Matrix.identity 4 4).inverseVal 4 = 1 := by
  have h := Matrix.toMat_inverseVal (Matrix.identity 4 4) (show 2 ≤ 3 by norm_num)
    (by simp) (by simp) (by simp)
  rw [show (3 + 1 : Nat) = 4 from rfl] at h
  rw [h, Matrix.toMat_identity, Matrix.adjugate_one, identity_detVal_one (by norm_num)]
  norm_num

theorem inverseVal_identity4_entry {r c : Nat} (hr : r < 4) (hc : c < 4) :
    (Matrix.identity 4 4).inverseVal.entry r c = if r = c then 1 else 0 := by
  have h := congrFun (congrFun toMat_inverseVal_identity4 ⟨r, hr⟩) ⟨c, hc⟩
  rw [Matrix.toMat_apply] at h
  rw [h, Matrix.one_apply]
  by_cases hrc : r = c
  · rw [if_pos (Fin.ext hrc), if_pos hrc]
  · rw [if_neg (fun e => hrc (congrArg Fin.val e)), if_neg hrc]

/-- Multiplying a tuple by the computed inverse of the identity transform
leaves it unchanged. -/
theorem mulTuple_inverseVal_identity4 (t : Tuple) :
    (Matrix.identity 4 4).inverseVal.mulTuple t = t := by
  rw [Matrix.mulTuple_eq _ (by simp) (by simp) t]
  simp [inverseVal_identity4_entry, Tuple.new]

/-- C1: Sphere::intersects transforms the ray by the inverse of the
sphere transform and solves the quadratic, returning no intersection on
a negative discriminant and otherwise exactly [t1, t2] with
t1 = (-b - sqrt disc)/2a before t2 = (-b + sqrt disc)/2a — the parameter
lists agree with the specification text for every sphere and ray — and
against the default sphere the three reference rays give t = [4, 6],
t = [] and t = [-1, 1]. -/
theorem claim_C1_sphere_intersects :
    (∀ (s : Sphere) (ray : Ray),
      (s.intersects ray).map Intersection.t = sphereIntersectionsSpec s ray) ∧
    ((Sphere.default.intersects
        ⟨Tuple.point 0 0 (-5), Tuple.vector 0 0 1⟩).map Intersection.t = [4, 6]) ∧
    ((Sphere.default.intersects
        ⟨Tuple.point 0 2 (-5), Tuple.vector 0 0 1⟩).map Intersection.t = []) ∧
    ((Sphere.default.intersects
        ⟨Tuple.point 0 0 0, Tuple.vector 0 0 1⟩).map Intersection.t = [-1, 1]) := by
  have hrefine : ∀ (s : Sphere) (ray : Ray),
      (s.intersects ray).map Intersection.t = sphereIntersectionsSpec s ray := by
    intro s ray
    rw [Sphere.intersects, sphereIntersectionsSpec]
    split
    · rfl
    · rfl
  have hsqrt4 : Real.sqrt 4 = 2 := by
    rw [show (4 : ℝ) = 2 ^ 2 by norm_num, Real.sqrt_sq (by norm_num : (0 : ℝ) ≤ 2)]
  have hdef : ∀ ray : Ray,
      Ray.transform ray Sphere.default.transform.inverseVal = ray := by
    intro ray
    rw [show Sphere.default.transform = Matrix.identity 4 4 from rfl, Ray.transform,
      mulTuple_inverseVal_identity4, mulTuple_inverseVal_identity4]
  refine ⟨hrefine, ?_, ?_, ?_⟩
  · rw [Sphere.intersects, hdef]
    rw [show (Tuple.point 0 0 (-5)).sub (Tuple.point 0 0 0) = Tuple.new 0 0 (-5) 0 from by
      simp [Tuple.point, Tuple.new, Tuple.sub]]
    simp only [Tuple.dot, Tuple.vector, Tuple.new]
    norm_num
    rw [hsqrt4]
    norm_num
  · rw [Sphere.intersects, hdef]
    rw [show (Tuple.point 0 2 (-5)).sub (Tuple.point 0 0 0) = Tuple.new 0 2 (-5) 0 from by
      simp [Tuple.point, Tuple.new, Tuple.sub]]
    simp only [Tuple.dot, Tuple.vector, Tuple.new]
    norm_num
  · rw [Sphere.intersects, hdef]
    rw [show (Tuple.point 0 0 0).sub (Tuple.point 0 0 0) = Tuple.new 0 0 0 0 from by
      simp [Tuple.point, Tuple.new, Tuple.sub]]
    simp only [Tuple.dot, Tuple.vector, Tuple.new]
    norm_num
    rw [hsqrt4]
    norm_num

/-- The vector Sphere::normal_at normalizes: the world normal after its w
component has been zeroed. -/
def Sphere.worldNormal (s : Sphere) (point : Tuple) : Tuple :=
  let objectPoint := s.transform.inverseVal.mulTuple point
  let objectNormal := objectPoint.sub (Tuple.point 0 0 0)
  let worldNormal := s.transform.inverseVal.transpose.mulTuple objectNormal
  Tuple.vector worldNormal.x worldNormal.y worldNormal.z

theorem Sphere.normalAt_eq_worldNormal (s : Sphere) (p : Tuple) :
    s.normalAt p = (s.worldNormal p).normalize := rfl

/-- Normalizing a nonzero vector yields a w = 0 tuple of magnitude
exactly 1. -/
theorem normalize_vector_unit (v : Tuple) (hw : v.w = 0)
    (h : ¬(v.x = 0 ∧ v.y = 0 ∧ v.z = 0)) :
    (v.normalize).w = 0 ∧ (v.normalize).magnitude = 1 := by
  obtain ⟨a, b, c, w⟩ := v
  simp only at hw h
  subst hw
  have hs : 0 < a ^ 2 + b ^ 2 + c ^ 2 := by
    rcases not_and_or.1 h with ha | hbc
    · have h1 : 0 < a ^ 2 := by positivity
      nlinarith [sq_nonneg b, sq_nonneg c]
    · rcases not_and_or.1 hbc with hb | hc
      · have h1 : 0 < b ^ 2 := by positivity
        nlinarith [sq_nonneg a, sq_nonneg c]
      · have h1 : 0 < c ^ 2 := by positivity
        nlinarith [sq_nonneg a, sq_nonneg b]
  have hmag : (Tuple.mk a b c 0).magnitude = Real.sqrt (a ^ 2 + b ^ 2 + c ^ 2) := by
    rw [Tuple.magnitude]
    norm_num
  have hmpos : 0 < (Tuple.mk a b c 0).magnitude := by
    rw [hmag]
    exact Real.sqrt_pos.2 hs
  have hm2 : (Tuple.mk a b c 0).magnitude ^ 2 = a ^ 2 + b ^ 2 + c ^ 2 := by
    rw [hmag, Real.sq_sqrt hs.le]
  have key : ∀ m : ℝ, 0 < m → m ^ 2 = a ^ 2 + b ^ 2 + c ^ 2 →
      Real.sqrt ((a / m) ^ 2 + (b / m) ^ 2 + (c / m) ^ 2 + (0 / m) ^ 2) = 1 := by
    intro m hm0 hm2
    have hsum : (a / m) ^ 2 + (b / m) ^ 2 + (c / m) ^ 2 + (0 / m) ^ 2
        = (a ^ 2 + b ^ 2 + c ^ 2) / m ^ 2 := by
      field_simp
    rw [hsum, ← hm2, div_self (pow_ne_zero 2 hm0.ne'), Real.sqrt_one]
  constructor
  · exact zero_div _
  · exact key _ hmpos hm2

/-- C6 as frozen is false on the code: countered below at the sphere
center, where the computed normal is the zero vector and normalizing it
divides zero by zero.  Amended with the proviso that the pre-normalized
world normal is nonzero: then normal_at returns a vector (w = 0) whose
magnitude is exactly 1. -/
theorem claim_C6_normal_at_unit (s : Sphere) (p : Tuple)
    (hinv : s.transform.isInvertible)
    (hnz : ¬((s.worldNormal p).x = 0 ∧ (s.worldNormal p).y = 0 ∧ (s.worldNormal p).z = 0)) :
    (s.normalAt p).w = 0 ∧ (s.normalAt p).magnitude = 1 := by
  rw [Sphere.normalAt_eq_worldNormal]
  exact normalize_vector_unit _ rfl hnz

/-- The world normal of the default sphere at the surface point
(1, 0, 0). -/
theorem default_worldNormal_x :
    Sphere.default.worldNormal (Tuple.point 1 0 0) = Tuple.vector 1 0 0 := by
  rw [Sphere.worldNormal]
  rw [show Sphere.default.transform = Matrix.identity 4 4 from rfl]
  rw [mulTuple_inverseVal_identity4]
  rw [show (Tuple.point 1 0 0).sub (Tuple.point 0 0 0) = Tuple.new 1 0 0 0 from by
    simp [Tuple.point, Tuple.new, Tuple.sub]]
  rw [Matrix.mulTuple_eq _ (by simp) (by simp)]
  simp [Matrix.transpose_entry, inverseVal_identity4_entry, Tuple.vector, Tuple.new]

/-- C6 witness: the default sphere at the surface point (1, 0, 0). -/
theorem claim_C6_witness :
    (Sphere.default.normalAt (Tuple.point 1 0 0)).w = 0 ∧
      (Sphere.default.normalAt (Tuple.point 1 0 0)).magnitude = 1 :=
  claim_C6_normal_at_unit Sphere.default (Tuple.point 1 0 0)
    (by rw [show Sphere.default.transform = Matrix.identity 4 4 from rfl, Matrix.isInvertible,
          identity_detVal_one (by norm_num)]
        norm_num)
    (by rw [default_worldNormal_x]
        norm_num [Tuple.vector, Tuple.new])

/-- C6 counterexample: at the world point that maps to the sphere center
the computed normal is the zero vector, and its normalization (a zero
division, NaN in the source, 0 in the real-number model) has magnitude 0,
whose distance to 1 exceeds the ~1e-5 tolerance — yet the default
transform is invertible. -/
theorem claim_C6_counterexample :
    Sphere.default.transform.isInvertible ∧
      eps < |(Sphere.default.normalAt (Tuple.point 0 0 0)).magnitude - 1| := by
  constructor
  · rw [show Sphere.default.transform = Matrix.identity 4 4 from rfl, Matrix.isInvertible,
      identity_detVal_one (by norm_num)]
    norm_num
  · have hwn : Sphere.default.worldNormal (Tuple.point 0 0 0) = Tuple.vector 0 0 0 := by
      rw [Sphere.worldNormal]
      rw [show Sphere.default.transform = Matrix.identity 4 4 from rfl]
      rw [mulTuple_inverseVal_identity4]
      rw [show (Tuple.point 0 0 0).sub (Tuple.point 0 0 0) = Tuple.new 0 0 0 0 from by
        simp [Tuple.point, Tuple.new, Tuple.sub]]
      rw [Matrix.mulTuple_eq _ (by simp) (by simp)]
      norm_num [Tuple.vector, Tuple.new]
    have hm : (Sphere.default.normalAt (Tuple.point 0 0 0)).magnitude = 0 := by
      rw [Sphere.normalAt_eq_worldNormal, hwn]
      have hmag0 : (Tuple.vector 0 0 0).magnitude = 0 := by
        rw [Tuple.magnitude]
        norm_num [Tuple.vector, Tuple.new]
      rw [Tuple.normalize, hmag0]
      rw [Tuple.magnitude]
      norm_num [Tuple.vector, Tuple.new]
    rw [hm]
    rw [show |(0 : ℝ) - 1| = 1 from by norm_num]
    norm_num [eps]

/-! ## Lighting (C3) and material equality (C7) -/

/-- C3: Material::lighting computes the Phong model exactly as the
specification steps describe it — ambient always, diffuse and specular
black when the light is behind the surface, specular black when the
reflection points away from the eye — and the two reference scenes give
(1.9, 1.9, 1.9) and (0.1, 0.1, 0.1). -/
theorem claim_C3_lighting :
    (∀ (m : Material) (light : PointLight) (position eyeVec normalVec : Tuple),
      m.lighting light position eyeVec normalVec
        = lightingSpec m light position eyeVec normalVec) ∧
    Material.default.lighting ⟨Tuple.point 0 0 (-10), Color.new 1 1 1⟩ (Tuple.point 0 0 0)
        (Tuple.vector 0 0 (-1)) (Tuple.vector 0 0 (-1)) = Color.new 1.9 1.9 1.9 ∧
    Material.default.lighting ⟨Tuple.point 0 0 10, Color.new 1 1 1⟩ (Tuple.point 0 0 0)
        (Tuple.vector 0 0 (-1)) (Tuple.vector 0 0 (-1)) = Color.new 0.1 0.1 0.1 := by
  refine ⟨?_, ?_, ?_⟩
  · intro m light position eyeVec normalVec
    simp only [Material.lighting, lightingSpec]
    rcases lt_or_le ((light.position.sub position).normalize.dot normalVec) 0 with h1 | h1
    · rw [if_neg (not_le.2 h1), if_pos h1]
    · rw [if_pos h1, if_neg (not_lt.2 h1)]
      rcases le_or_lt
          (((light.position.sub position).normalize.neg.reflect normalVec).dot eyeVec) 0
        with h2 | h2
      · rw [if_neg (not_lt.2 h2), if_pos h2]
      · rw [if_pos h2, if_neg (not_le.2 h2)]
  · have hsub : (Tuple.point 0 0 (-10)).sub (Tuple.point 0 0 0) = Tuple.new 0 0 (-10) 0 := by
      simp [Tuple.point, Tuple.new, Tuple.sub]
    have hmag : (Tuple.new 0 0 (-10) 0).magnitude = 10 := by
      rw [Tuple.magnitude]
      simp only [Tuple.new]
      norm_num
      rw [show (100 : ℝ) = 10 ^ 2 by norm_num, Real.sqrt_sq (by norm_num : (0 : ℝ) ≤ 10)]
    have hlv : (Tuple.new 0 0 (-10) 0).normalize = Tuple.new 0 0 (-1) 0 := by
      rw [Tuple.normalize, hmag]
      norm_num [Tuple.new]
    rw [show Material.default = ⟨Color.new 1 1 1, 0.1, 0.9, 0.9, 200⟩ from rfl]
    simp only [Material.lighting]
    rw [hsub, hlv]
    simp only [Color.mulColor, Color.mulScalar, Color.add, Color.new, Color.red, Color.green,
      Color.blue, Tuple.dot, Tuple.neg, Tuple.reflect, Tuple.sub, Tuple.mulScalar, Tuple.add,
      Tuple.vector, Tuple.new]
    norm_num [Real.one_rpow]
  · have hsub : (Tuple.point 0 0 10).sub (Tuple.point 0 0 0) = Tuple.new 0 0 10 0 := by
      simp [Tuple.point, Tuple.new, Tuple.sub]
    have hmag : (Tuple.new 0 0 10 0).magnitude = 10 := by
      rw [Tuple.magnitude]
      simp only [Tuple.new]
      norm_num
      rw [show (100 : ℝ) = 10 ^ 2 by norm_num, Real.sqrt_sq (by norm_num : (0 : ℝ) ≤ 10)]
    have hlv : (Tuple.new 0 0 10 0).normalize = Tuple.new 0 0 1 0 := by
      rw [Tuple.normalize, hmag]
      norm_num [Tuple.new]
    rw [show Material.default = ⟨Color.new 1 1 1, 0.1, 0.9, 0.9, 200⟩ from rfl]
    simp only [Material.lighting]
    rw [hsub, hlv]
    simp only [Color.mulColor, Color.mulScalar, Color.add, Color.new, Color.red, Color.green,
      Color.blue, Tuple.dot, Tuple.neg, Tuple.reflect, Tuple.sub, Tuple.mulScalar, Tuple.add,
      Tuple.vector, Tuple.new]
    norm_num [Real.one_rpow]

/-- C7 as frozen is false on the code: countered below — the Color
PartialEq delegates to the approximate tuple equality, so two materials
whose colors differ by a nonzero amount within the 1e-5 tolerance still
compare equal.  Amended: Material equality compares the four numeric
reflectance fields and every component of the color with absolute
tolerance ~1e-5. -/
theorem claim_C7_material_eq (a b : Material) :
    a.matEq b ↔
      (|a.ambient - b.ambient| ≤ eps ∧ |a.diffuse - b.diffuse| ≤ eps ∧
        |a.specular - b.specular| ≤ eps ∧ |a.shininess - b.shininess| ≤ eps ∧
        |a.color.tuple.x - b.color.tuple.x| ≤ eps ∧
        |a.color.tuple.y - b.color.tuple.y| ≤ eps ∧
        |a.color.tuple.z - b.color.tuple.z| ≤ eps ∧
        |a.color.tuple.w - b.color.tuple.w| ≤ eps) := by
  rw [Material.matEq, Color.approxEq, Tuple.approxEq]

/-- C7 counterexample: two materials whose colors differ by 1e-6 (and
are therefore not equal as colors) still compare equal under the
Material PartialEq. -/
theorem claim_C7_counterexample :
    Material.matEq Material.default
        ⟨Color.new (1 + 1 / 1000000) 1 1, 0.1, 0.9, 0.9, 200⟩ ∧
      Material.default.color
        ≠ (⟨Color.new (1 + 1 / 1000000) 1 1, 0.1, 0.9, 0.9, 200⟩ : Material).color := by
  constructor
  · rw [Material.matEq, Color.approxEq, Tuple.approxEq]
    rw [show Material.default = ⟨Color.new 1 1 1, 0.1, 0.9, 0.9, 200⟩ from rfl]
    norm_num [Color.new, Tuple.new, eps, abs_le]
  · intro h
    have hx := congrArg (fun c : Color => c.tuple.x) h
    rw [show Material.default = ⟨Color.new 1 1 1, 0.1, 0.9, 0.9, 200⟩ from rfl] at hx
    simp only [Color.new, Tuple.new] at hx
    norm_num at hx

/-! ## PPM export (C8) -/

theorem getOutVal_zero : getOutVal 0 = 0 := by
  rw [getOutVal, if_pos le_rfl]

theorem samples_black_aux : ∀ n : Nat,
    (List.replicate n Color.default).flatMap
      (fun px => [getOutVal px.red, getOutVal px.green, getOutVal px.blue])
    = List.replicate (3 * n) 0 := by
  intro n
  induction n with
  | zero => rfl
  | succ n ih =>
    rw [List.replicate_succ, List.flatMap_cons, ih]
    rw [show getOutVal Color.default.red = 0 from getOutVal_zero,
      show getOutVal Color.default.green = 0 from getOutVal_zero,
      show getOutVal Color.default.blue = 0 from getOutVal_zero]
    rw [show 3 * (n + 1) = 3 + 3 * n by ring, List.replicate_add]
    rfl

/-- Every sample of an all-black canvas is 0. -/
theorem samples_black (w h : Nat) :
    samples (Canvas.new w h) = List.replicate (3 * (w * h)) 0 := by
  rw [samples]
  rw [show (Canvas.new w h).pixels = List.replicate (w * h) Color.default from rfl]
  exact samples_black_aux _

theorem splitNl_cons (c : Char) (cs : List Char) :
    splitNl (c :: cs) = match splitNl cs with
      | [] => [[c]]
      | l :: ls => if c = '\n' then [] :: l :: ls else (c :: l) :: ls := by
  rw [splitNl]

theorem splitNl_shape (l : List Char) : ∃ s rest, splitNl l = s :: rest := by
  induction l with
  | nil => exact ⟨[], [], rfl⟩
  | cons c cs ih =>
    obtain ⟨s, rest, hs⟩ := ih
    rw [splitNl_cons, hs]
    by_cases hc : c = '\n'
    · refine ⟨[], s :: rest, ?_⟩
      show (if c = '\n' then [] :: s :: rest else (c :: s) :: rest) = [] :: s :: rest
      rw [if_pos hc]
    · refine ⟨c :: s, rest, ?_⟩
      show (if c = '\n' then [] :: s :: rest else (c :: s) :: rest) = (c :: s) :: rest
      rw [if_neg hc]

theorem splitNl_newline_cons (cs : List Char) : splitNl ('\n' :: cs) = [] :: splitNl cs := by
  obtain ⟨s, rest, hs⟩ := splitNl_shape cs
  rw [splitNl_cons, hs]
  rfl

theorem splitNl_other_cons (c : Char) (hc : ¬c = '\n') (cs s : List Char)
    (rest : List (List Char)) (hs : splitNl cs = s :: rest) :
    splitNl (c :: cs) = (c :: s) :: rest := by
  rw [splitNl_cons, hs]
  show (if c = '\n' then [] :: s :: rest else (c :: s) :: rest) = (c :: s) :: rest
  rw [if_neg hc]

theorem splitNl_append_newline : ∀ a : List Char, '\n' ∉ a →
    ∀ rest, splitNl (a ++ '\n' :: rest) = a :: splitNl rest := by
  intro a
  induction a with
  | nil =>
    intro _ rest
    exact splitNl_newline_cons rest
  | cons c a ih =>
    intro hmem rest
    have hc : ¬c = '\n' := fun e => hmem (by rw [e]; exact List.mem_cons_self _ _)
    have ha : '\n' ∉ a := fun hm => hmem (List.mem_cons_of_mem _ hm)
    obtain ⟨s, r, hs⟩ := splitNl_shape (a ++ '\n' :: rest)
    rw [List.cons_append]
    rw [splitNl_other_cons c hc _ _ _ (ih ha rest)]

theorem ppmBody_cons (rowLen s : Nat) (rest : List Nat) (count : Nat) :
    ppmBody rowLen (s :: rest) count = decimalRepr s ++
      (if (count + 1) % rowLen = 0 ∨ maxPpmLineLength ≤ count + 1 then
        '\n' :: ppmBody rowLen rest 0
      else
        ' ' :: ppmBody rowLen rest (count + 1)) := by
  rw [ppmBody]

/-- Line structure of the exported sample stream of an all-black canvas:
starting with `count` samples already on the current line, the current
line gathers at most 69 - count more two-character samples, and every
later line holds at most 70 of them, so no line of the data section
exceeds 139 characters. -/
theorem ppmBody_zero_lines (rowLen : Nat) : ∀ n count : Nat, count ≤ 69 →
    ∃ s rest, splitNl (ppmBody rowLen (List.replicate n 0) count) = s :: rest ∧
      s.length + 2 * count ≤ 139 ∧ ∀ seg ∈ rest, seg.length ≤ 139 := by
  intro n
  induction n with
  | zero =>
    intro count hcount
    exact ⟨[], [], rfl, by simp only [List.length_nil]; omega, by simp⟩
  | succ n ih =>
    intro count hcount
    rw [List.replicate_succ, ppmBody_cons]
    rw [show decimalRepr 0 = ['0'] from rfl]
    by_cases hbr : (count + 1) % rowLen = 0 ∨ maxPpmLineLength ≤ count + 1
    · rw [if_pos hbr]
      obtain ⟨s, rest, hs, hlen, hrest⟩ := ih 0 (by omega)
      refine ⟨['0'], s :: rest, ?_, by simp only [List.length_cons, List.length_nil]; omega, ?_⟩
      · rw [List.cons_append, List.nil_append]
        have h1 : splitNl ('\n' :: ppmBody rowLen (List.replicate n 0) 0)
            = [] :: s :: rest := by
          rw [splitNl_newline_cons, hs]
        exact splitNl_other_cons _ (by decide) _ _ _ h1
      · intro seg hseg
        rcases List.mem_cons.1 hseg with rfl | hseg
        · omega
        · exact hrest seg hseg
    · rw [if_neg hbr]
      have hc1 : count + 1 ≤ 69 := by
        rw [not_or] at hbr
        have := hbr.2
        rw [maxPpmLineLength] at this
        omega
      obtain ⟨s, rest, hs, hlen, hrest⟩ := ih (count + 1) hc1
      refine ⟨'0' :: ' ' :: s, rest, ?_, by simp only [List.length_cons]; omega, hrest⟩
      rw [List.cons_append, List.nil_append]
      exact splitNl_other_cons _ (by decide) _ _ _
        (splitNl_other_cons _ (by decide) _ _ _ hs)

/-- When a whole number of rows remains and rows fit in the line budget,
the sample loop ends on a newline. -/
theorem ppmBody_zero_last (rowLen : Nat) (hpos : 0 < rowLen) (hfit : rowLen ≤ 70) :
    ∀ n count : Nat, count < rowLen → rowLen ∣ (count + (n + 1)) →
      (ppmBody rowLen (List.replicate (n + 1) 0) count).getLast? = some '\n' := by
  intro n
  induction n with
  | zero =>
    intro count hlt hdvd
    have heq : count + 1 = rowLen := by
      rcases hdvd with ⟨k, hk⟩
      have hk1 : 0 < k := by
        rcases Nat.eq_zero_or_pos k with rfl | h
        · omega
        · exact h
      nlinarith
    rw [List.replicate_succ, ppmBody_cons]
    rw [if_pos (Or.inl (by rw [heq, Nat.mod_self]))]
    rfl
  | succ n ih =>
    intro count hlt hdvd
    rw [List.replicate_succ, ppmBody_cons]
    rw [show decimalRepr 0 = ['0'] from rfl]
    have hbody_shape : ∀ c : Nat, ∃ ch l,
        ppmBody rowLen (List.replicate (n + 1) 0) c = ch :: l := by
      intro c
      rw [List.replicate_succ, ppmBody_cons]
      rw [show decimalRepr 0 = ['0'] from rfl]
      exact ⟨'0', _, rfl⟩
    by_cases hbr : (count + 1) % rowLen = 0 ∨ maxPpmLineLength ≤ count + 1
    · rw [if_pos hbr]
      have hdvd1 : rowLen ∣ count + 1 := by
        rcases hbr with hm | hb
        · exact Nat.dvd_of_mod_eq_zero hm
        · rw [maxPpmLineLength] at hb
          have : count + 1 = rowLen := by omega
          rw [this]
      have hdvdn : rowLen ∣ 0 + (n + 1) := by
        rw [Nat.zero_add]
        have h1 : count + (n + 1 + 1) = (count + 1) + (n + 1) := by ring
        rw [h1] at hdvd
        exact (Nat.dvd_add_right hdvd1).1 hdvd
      have hrec := ih 0 hpos hdvdn
      obtain ⟨ch, l, hl⟩ := hbody_shape 0
      rw [hl] at hrec ⊢
      rw [List.cons_append, List.nil_append, List.getLast?_cons_cons, List.getLast?_cons_cons]
      exact hrec
    · rw [if_neg hbr]
      have hlt1 : count + 1 < rowLen := by
        rw [not_or] at hbr
        rcases Nat.lt_or_ge (count + 1) rowLen with h | h
        · exact h
        · have : count + 1 = rowLen := by omega
          exact absurd (by rw [this, Nat.mod_self]) hbr.1
      have hdvdn : rowLen ∣ (count + 1) + (n + 1) := by
        have h1 : count + (n + 1 + 1) = (count + 1) + (n + 1) := by ring
        rwa [h1] at hdvd
      have hrec := ih (count + 1) hlt1 hdvdn
      obtain ⟨ch, l, hl⟩ := hbody_shape (count + 1)
      rw [hl] at hrec ⊢
      rw [List.cons_append, List.nil_append, List.getLast?_cons_cons, List.getLast?_cons_cons]
      exact hrec

theorem digitChar_ne_newline : ∀ d < 10, Nat.digitChar d ≠ '\n' := by decide

theorem decRepAux_no_newline : ∀ fuel n : Nat, '\n' ∉ decRepAux fuel n := by
  intro fuel
  induction fuel with
  | zero => intro n; simp [decRepAux]
  | succ fuel ih =>
    intro n
    rcases n with _ | m
    · simp [decRepAux]
    · rw [show decRepAux (fuel + 1) (m + 1)
          = decRepAux fuel ((m + 1) / 10) ++ [Nat.digitChar ((m + 1) % 10)] from rfl]
      intro hmem
      rcases List.mem_append.1 hmem with h | h
      · exact ih _ h
      · rcases List.mem_singleton.1 h with h
        exact digitChar_ne_newline _ (Nat.mod_lt _ (by omega)) h.symm

theorem decimalRepr_no_newline (n : Nat) : '\n' ∉ decimalRepr n := by
  rw [decimalRepr]
  by_cases h : n = 0
  · rw [if_pos h]
    decide
  · rw [if_neg h]
    exact decRepAux_no_newline n n

theorem decRepAux_length_le : ∀ fuel n k : Nat, n < 10 ^ k →
    (decRepAux fuel n).length ≤ k := by
  intro fuel
  induction fuel with
  | zero =>
    intro n k _
    simp [decRepAux]
  | succ fuel ih =>
    intro n k hn
    rcases n with _ | m
    · simp [decRepAux]
    · have hk : 1 ≤ k := by
        by_contra hk0
        have : k = 0 := by omega
        subst this
        simp at hn
      rw [show decRepAux (fuel + 1) (m + 1)
          = decRepAux fuel ((m + 1) / 10) ++ [Nat.digitChar ((m + 1) % 10)] from rfl]
      rw [List.length_append, List.length_singleton]
      have hdiv : (m + 1) / 10 < 10 ^ (k - 1) := by
        rw [Nat.div_lt_iff_lt_mul (by omega : 0 < 10)]
        calc m + 1 < 10 ^ k := hn
        _ = 10 ^ (k - 1) * 10 := by
          rw [← Nat.pow_succ]
          congr 1
          omega
      have := ih ((m + 1) / 10) (k - 1) hdiv
      omega

theorem decimalRepr_length_le {n k : Nat} (hk : 1 ≤ k) (hn : n < 10 ^ k) :
    (decimalRepr n).length ≤ k := by
  rw [decimalRepr]
  by_cases h : n = 0
  · rw [if_pos h]
    simpa using hk
  · rw [if_neg h]
    exact decRepAux_length_le n n k hn

/-- The lines of the whole export: the three header lines and then the
lines of the sample stream. -/
theorem splitNl_ppmExport (w h : Nat) :
    splitNl (ppmExport (Canvas.new w h))
      = ['P', '3'] :: (decimalRepr w ++ ' ' :: decimalRepr h) :: ['2', '5', '5']
          :: splitNl (ppmBody (w * 3) (List.replicate (3 * (w * h)) 0) 0) := by
  rw [ppmExport, samples_black]
  rw [show (Canvas.new w h).width = w from rfl, show (Canvas.new w h).height = h from rfl]
  rw [ppmHeader]
  rw [show (['P', '3', '\n'] ++ (decimalRepr w ++ ' ' :: decimalRepr h)
        ++ '\n' :: '2' :: '5' :: '5' :: '\n' :: [])
      ++ ppmBody (w * 3) (List.replicate (3 * (w * h)) 0) 0
      = ['P', '3'] ++ '\n' :: ((decimalRepr w ++ ' ' :: decimalRepr h)
        ++ '\n' :: (['2', '5', '5']
          ++ '\n' :: ppmBody (w * 3) (List.replicate (3 * (w * h)) 0) 0)) from by
    simp]
  rw [splitNl_append_newline _ (by decide) _]
  rw [splitNl_append_newline _ (by
    intro hmem
    rcases List.mem_append.1 hmem with hm | hm
    · exact decimalRepr_no_newline w hm
    · rcases List.mem_cons.1 hm with he | hm
      · cases he
      · exact decimalRepr_no_newline h hm) _]
  rw [splitNl_append_newline _ (by decide) _]

/-- C8 as frozen is false on the code: countered below.  The exporter
counts samples, not characters, against its 70 budget, and ends on a
space when the last sample does not land on a break.  Amended: for an
all-black canvas (dimensions below 10^20 so the header line is short) no
output line exceeds 139 characters — each data line holds at most 70
two-character samples — and when the canvas is non-empty and a full row
of samples (3 * width) fits the 70-sample budget, the stream ends with a
newline byte. -/
theorem claim_C8_ppm_export (w h : Nat) (hw : w < 10 ^ 20) (hh : h < 10 ^ 20) :
    (∀ seg ∈ splitNl (ppmExport (Canvas.new w h)), seg.length ≤ 139) ∧
    (0 < w * h → w * 3 ≤ 70 →
      (ppmExport (Canvas.new w h)).getLast? = some '\n') := by
  constructor
  · intro seg hseg
    rw [splitNl_ppmExport] at hseg
    obtain ⟨s, rest, hs, hlen, hrest⟩ :=
      ppmBody_zero_lines (w * 3) (3 * (w * h)) 0 (by omega)
    rcases List.mem_cons.1 hseg with rfl | hseg
    · simp
    · rcases List.mem_cons.1 hseg with rfl | hseg
      · rw [List.length_append, List.length_cons]
        have h1 := decimalRepr_length_le (by omega : (1 : Nat) ≤ 20) hw
        have h2 := decimalRepr_length_le (by omega : (1 : Nat) ≤ 20) hh
        omega
      · rcases List.mem_cons.1 hseg with rfl | hseg
        · simp
        · rw [hs] at hseg
          rcases List.mem_cons.1 hseg with rfl | hseg
          · omega
          · exact hrest seg hseg
  · intro hpos hfit
    have hw0 : 0 < w := by
      rcases Nat.eq_zero_or_pos w with rfl | hgt
      · simp at hpos
      · exact hgt
    have h3 : 0 < w * 3 := by omega
    obtain ⟨m, hm⟩ : ∃ m, 3 * (w * h) = m + 1 := ⟨3 * (w * h) - 1, by omega⟩
    rw [ppmExport, samples_black, show (Canvas.new w h).width = w from rfl,
      show (Canvas.new w h).height = h from rfl, hm]
    rw [List.getLast?_append_of_ne_nil]
    · exact ppmBody_zero_last (w * 3) h3 hfit m 0 h3
        (by rw [Nat.zero_add, ← hm]; exact ⟨h, by ring⟩)
    · rw [List.replicate_succ, ppmBody_cons]
      rw [show decimalRepr 0 = ['0'] from rfl]
      simp

/-- C8 witness: a 5 x 3 all-black canvas. -/
theorem claim_C8_witness :
    (∀ seg ∈ splitNl (ppmExport (Canvas.new 5 3)), seg.length ≤ 139) ∧
    (0 < 5 * 3 → 5 * 3 ≤ 70 →
      (ppmExport (Canvas.new 5 3)).getLast? = some '\n') :=
  claim_C8_ppm_export 5 3 (by norm_num) (by norm_num)

set_option maxRecDepth 100000 in
/-- C8 counterexample: the all-black 24 x 1 canvas.  Its first data line
carries 70 one-digit samples — 139 characters, over the 70-character
budget — and the two leftover samples of the row end the stream with a
space, not a newline. -/
theorem claim_C8_counterexample :
    (∃ seg ∈ splitNl (ppmExport (Canvas.new 24 1)), 70 < seg.length) ∧
      (ppmExport (Canvas.new 24 1)).getLast? = some ' ' := by
  have hs : ppmExport (Canvas.new 24 1)
      = ppmHeader 24 1 ++ ppmBody 72 (List.replicate 72 0) 0 := by
    rw [ppmExport, samples_black, show (Canvas.new 24 1).width = 24 from rfl,
      show (Canvas.new 24 1).height = 1 from rfl]
  rw [hs]
  exact ⟨by decide, by decide⟩

end RT

end
